import Mathlib

/-!
Verification of the caching / staleness-reconciliation core of the
hubspot-deals-viewer repository, shallowly embedded from `src/server.js`,
`src/db.js` and `src/nextSteps.js`.

Conventions of the embedding:
* JavaScript `undefined`/`null` values are modelled with `Option`;
  JS truthiness on strings (`"" `, `undefined` falsy) and on numbers
  (`0`, `null` falsy) is modelled explicitly by `optStrFalsy` / `optNatTruthy`.
* Timestamps (`Date.now()`, ISO date strings, epoch numbers) are modelled as
  `Nat` epoch milliseconds; `Infinity` as a TTL bound is modelled by `(⊤ : ℕ∞)`.
* A JS `Map` built from an entry list is modelled by `jsMapGet`/`jsMapHas`
  (later entries win, as in `new Map(pairs)`).
* `JSON.stringify`/`JSON.parse` of meeting-id arrays: `JSON.stringify` is
  injective on arrays of strings, so comparing stringified sorted arrays is
  modelled as equality of the sorted id lists, and the stored `meeting_ids`
  text column is modelled as the parsed `Option (List String)`
  (`none` = SQL/JS `null`).
* Upstream HTTP calls are modelled as oracle functions passed in as
  arguments; a call that can fail is an `Except String` value, and the
  per-item `try/catch → null` in the source is the explicit
  `attemptFetch…` wrapper.
* Asynchronous execution: `await Promise.all(batch.map(f))` settles in an
  unspecified order but places each result at its input index; this is
  modelled by `settleBatch`/`collectByIndex` below, and the sequential
  batching loop by `processBatch`.
-/

/-- JS falsiness of an optional string: `undefined`/`null` and `""` are falsy. -/
def optStrFalsy : Option String → Bool
  | none => true
  | some s => s = ""

/-- JS truthiness of an optional string. -/
def optStrTruthy (s : Option String) : Bool := ! optStrFalsy s

/-- JS truthiness of an optional number: `undefined`/`null` and `0` are falsy. -/
def optNatTruthy : Option Nat → Bool
  | none => false
  | some n => decide (n ≠ 0)

/-- JS `a || b` on optional numbers (used for `timestamp || createdAt` and
`hs_meeting_start_time || hs_timestamp`). -/
def jsOrNat (a b : Option Nat) : Option Nat :=
  if optNatTruthy a then a else b

/-- Lookup in a JS `Map` built as `new Map(pairs)`: the last entry for a key
wins, `undefined` when the key is absent. -/
def jsMapGet {β : Type} (pairs : List (String × β)) (k : String) : Option β :=
  (pairs.reverse.find? (fun p => p.1 == k)).map (·.2)

/-- `Map.prototype.has` for a JS `Map` built as `new Map(pairs)`. -/
def jsMapHas {β : Type} (pairs : List (String × β)) (k : String) : Bool :=
  pairs.any (fun p => p.1 == k)

/-- Lexicographic comparison of char lists by code point, the order used by
JavaScript `Array.prototype.sort()` on strings (UTF-16 code unit order; the
ids sorted in the source are ASCII HubSpot ids, where the two coincide). -/
def lexLe : List Char → List Char → Bool
  | [], _ => true
  | _ :: _, [] => false
  | a :: as, b :: bs =>
    if a.toNat < b.toNat then true
    else if b.toNat < a.toNat then false
    else lexLe as bs

/-- String comparison of `Array.prototype.sort()` with no comparator. -/
def idLe (a b : String) : Prop := lexLe a.data b.data = true

instance : DecidableRel idLe := fun a b => instDecidableEqBool (lexLe a.data b.data) true

/-- `ids.sort()` on an array of id strings: a stable sort in the default
string order. -/
def sortIds (ids : List String) : List String := ids.insertionSort idLe

theorem lexLe_total : ∀ as bs, lexLe as bs = true ∨ lexLe bs as = true := by
  intro as
  induction as with
  | nil => intro bs; left; rfl
  | cons a as ih =>
    intro bs
    cases bs with
    | nil => right; rfl
    | cons b bs =>
      by_cases hab : a.toNat < b.toNat
      · left; simp [lexLe, hab]
      · by_cases hba : b.toNat < a.toNat
        · right; simp [lexLe, hba, Nat.lt_asymm hba]
        · have := ih bs
          rcases this with h | h
          · left; simp [lexLe, hab, hba, h]
          · right; simp [lexLe, hab, hba, h]

theorem lexLe_trans :
    ∀ as bs cs, lexLe as bs = true → lexLe bs cs = true → lexLe as cs = true := by
  intro as
  induction as with
  | nil => intro bs cs _ _; rfl
  | cons a as ih =>
    intro bs cs h1 h2
    cases bs with
    | nil => simp [lexLe] at h1
    | cons b bs =>
      cases cs with
      | nil => simp [lexLe] at h2
      | cons c cs =>
        simp only [lexLe] at h1 h2 ⊢
        by_cases hab : a.toNat < b.toNat
        · by_cases hbc : b.toNat < c.toNat
          · have : a.toNat < c.toNat := Nat.lt_trans hab hbc
            simp [this]
          · by_cases hcb : c.toNat < b.toNat
            · simp [hbc, hcb] at h2
            · have hbceq : b.toNat = c.toNat := Nat.le_antisymm (Nat.le_of_not_lt hcb) (Nat.le_of_not_lt hbc)
              have : a.toNat < c.toNat := hbceq ▸ hab
              simp [this]
        · by_cases hba : b.toNat < a.toNat
          · simp [hab, hba] at h1
          · have habeq : a.toNat = b.toNat := Nat.le_antisymm (Nat.le_of_not_lt hba) (Nat.le_of_not_lt hab)
            by_cases hbc : b.toNat < c.toNat
            · have : a.toNat < c.toNat := habeq ▸ hbc
              simp [this]
            · by_cases hcb : c.toNat < b.toNat
              · simp [hbc, hcb] at h2
              · have hbceq : b.toNat = c.toNat := Nat.le_antisymm (Nat.le_of_not_lt hcb) (Nat.le_of_not_lt hbc)
                have hac : ¬ a.toNat < c.toNat := by omega
                have hca : ¬ c.toNat < a.toNat := by omega
                simp only [hab, hba, hbc, hcb, if_neg hac, if_neg hca, if_neg, ite_false] at h1 h2 ⊢
                exact ih bs cs h1 h2

instance : IsTotal String idLe := ⟨fun a b => lexLe_total a.data b.data⟩

instance : IsTrans String idLe := ⟨fun a b c => lexLe_trans a.data b.data c.data⟩

theorem sortIds_sorted (ids : List String) : List.Sorted idLe (sortIds ids) :=
  List.sorted_insertionSort idLe ids

theorem sortIds_idem (ids : List String) : sortIds (sortIds ids) = sortIds ids :=
  List.Sorted.insertionSort_eq (sortIds_sorted ids)

/-! ### `src/db.js` — in-memory backing (active when `DATABASE_URL` is unset)
and the durable single-row deals snapshot. -/

/-- A per-key cache row: `{ data, cachedAt: Date.now() }` (`memoryStore.companies`
and `memoryStore.contacts` entries). -/
structure CacheEntry (α : Type) where
  data : α
  cachedAt : Nat
deriving DecidableEq

/-- `db.getCompanyCache(companyId, maxAgeMs)`: `null` when no entry exists or
when `Date.now() - cachedAt > maxAgeMs`; the stored data otherwise. -/
def getCompanyCache {α : Type} (store : String → Option (CacheEntry α))
    (companyId : String) (maxAgeMs : ℕ∞) (now : Nat) : Option α :=
  match store companyId with
  | none => none
  | some cached =>
    if ((now - cached.cachedAt : Nat) : ℕ∞) > maxAgeMs then none else some cached.data

/-- `db.setCompanyCache(companyId, data)`: upsert with `cachedAt = Date.now()`. -/
def setCompanyCache {α : Type} (store : String → Option (CacheEntry α))
    (companyId : String) (data : α) (now : Nat) : String → Option (CacheEntry α) :=
  fun k => if k = companyId then some ⟨data, now⟩ else store k

/-- A `memoryStore.meetings` row (or a `cache_meetings` table row):
`last_meeting_date` and the serialized sorted meeting-id set, with the
write-time stamp. `meetingIds = none` models a stored `null`. -/
structure MeetingRow where
  lastMeetingDate : Option Nat
  meetingIds : Option (List String)
  cachedAt : Nat
deriving DecidableEq

/-- The value `db.getMeetingCache` hands back on a hit:
`{ lastMeetingDate, meetingIds }`. -/
structure MeetingCacheView where
  lastMeetingDate : Option Nat
  meetingIds : Option (List String)
deriving DecidableEq

/-- `db.getMeetingCache(companyId, maxAgeMs)` for one company: `null` when no
row exists or the row is older than `maxAgeMs` (the caller passes `Infinity`,
i.e. `⊤`, so age never expires it). -/
def getMeetingCache (row : Option MeetingRow) (maxAgeMs : ℕ∞) (now : Nat) :
    Option MeetingCacheView :=
  match row with
  | none => none
  | some cached =>
    if ((now - cached.cachedAt : Nat) : ℕ∞) > maxAgeMs then none
    else some ⟨cached.lastMeetingDate, cached.meetingIds⟩

/-- `db.setMeetingCache(companyId, lastMeetingDate, meetingIds)`: upsert of the
whole row with `cachedAt = Date.now()`. -/
def setMeetingCache (lastMeetingDate : Option Nat) (meetingIds : Option (List String))
    (now : Nat) : MeetingRow :=
  ⟨lastMeetingDate, meetingIds, now⟩

/-- The deals snapshot value `{ data, lastFetched }`. -/
structure Snapshot (α : Type) where
  data : α
  lastFetched : Nat
deriving DecidableEq

/-- In-memory deals snapshot write: `memoryStore.deals = { data, lastFetched: Date.now() }`
(the previous slot value is discarded wholesale). -/
def setDealsCacheMem {α : Type} (data : α) (now : Nat) : Option (Snapshot α) :=
  some ⟨data, now⟩

/-- In-memory deals snapshot read: `return memoryStore.deals`. -/
def getDealsCacheMem {α : Type} (slot : Option (Snapshot α)) : Option (Snapshot α) :=
  slot

/-- A `cache_deals` table row of the durable backing. -/
structure DealsRow (α : Type) where
  data : α
  last_fetched : Nat
deriving DecidableEq

/-- Durable deals snapshot write: `DELETE FROM cache_deals` followed by a
single `INSERT` of the new data stamped `NOW()`. -/
def setDealsCacheDb {α : Type} (tbl : List (DealsRow α)) (data : α) (now : Nat) :
    List (DealsRow α) :=
  let cleared : List (DealsRow α) := []
  let _ := tbl
  cleared ++ [⟨data, now⟩]

/-- Durable deals snapshot read:
`SELECT data, last_fetched FROM cache_deals ORDER BY last_fetched DESC LIMIT 1`,
`null` when the table is empty. -/
def getDealsCacheDb {α : Type} (tbl : List (DealsRow α)) : Option (Snapshot α) :=
  match tbl.insertionSort (fun a b => b.last_fetched ≤ a.last_fetched) with
  | [] => none
  | r :: _ => some ⟨r.data, r.last_fetched⟩

/-! ### `src/server.js` — the batch scheduler `processBatch`. -/

/-- Rate-limit constant `BATCH_SIZE = 2` of `src/server.js`. -/
def BATCH_SIZE : Nat := 2

/-- Rate-limit constant `BATCH_DELAY = 5000` of `src/server.js`. -/
def BATCH_DELAY : Nat := 5000

/-- Observable scheduling events of one `processBatch` run: an invocation of
`processFn` on an item (with its settled result), or the `await delay(delayMs)`
pause inserted between batches. -/
inductive BatchEvent (α β : Type) where
  | call : α → β → BatchEvent α β
  | pause : Nat → BatchEvent α β
deriving DecidableEq

/-- `processBatch(items, processFn, batchSize, delayMs)`: the loop
`for (let i = 0; i < items.length; i += batchSize)` takes the slice
`items.slice(i, i + batchSize)`, awaits `Promise.all(batch.map(processFn))`,
appends the batch results, and sleeps `delayMs` when `i + batchSize <
items.length` (i.e. when items remain). Returns the concatenated results
together with the event trace. On `batchSize = 0` the JS loop never
terminates; no call site does that (sizes used are 2 and 5), and the model
returns an empty run for totality. -/
def processBatch {α β : Type} (items : List α) (processFn : α → β)
    (batchSize delayMs : Nat) : List β × List (BatchEvent α β) :=
  match items, batchSize with
  | [], _ => ([], [])
  | _ :: _, 0 => ([], [])
  | x :: xs, b + 1 =>
    let batch := (x :: xs).take (b + 1)
    let rest := (x :: xs).drop (b + 1)
    let batchResults := batch.map processFn
    let events := batch.map (fun a => BatchEvent.call a (processFn a))
    if rest.isEmpty then (batchResults, events)
    else
      let next := processBatch rest processFn (b + 1) delayMs
      (batchResults ++ next.1, events ++ BatchEvent.pause delayMs :: next.2)
termination_by items.length
decreasing_by
  simp only [List.length_drop, List.length_cons]
  omega

/-- Contiguous partition of a list into slices of `batchSize` — the groups the
`processBatch` loop works through (`items.slice(i, i + batchSize)`). -/
def batchSlices {α : Type} (items : List α) (batchSize : Nat) : List (List α) :=
  match items, batchSize with
  | [], _ => []
  | _ :: _, 0 => []
  | x :: xs, b + 1 =>
    (x :: xs).take (b + 1) :: batchSlices ((x :: xs).drop (b + 1)) (b + 1)
termination_by items.length
decreasing_by
  simp only [List.length_drop, List.length_cons]
  omega

/-- Splits an event trace at its pauses, recovering the groups of items
called between consecutive pauses. -/
def traceGroups {α β : Type} : List (BatchEvent α β) → List (List α)
  | [] => [[]]
  | BatchEvent.call a _ :: rest =>
    match traceGroups rest with
    | [] => [[a]]
    | g :: gs => (a :: g) :: gs
  | BatchEvent.pause _ :: rest => [] :: traceGroups rest

/-- Number of pause events in a trace. -/
def pauseCount {α β : Type} : List (BatchEvent α β) → Nat
  | [] => 0
  | BatchEvent.call _ _ :: rest => pauseCount rest
  | BatchEvent.pause _ :: rest => pauseCount rest + 1

/-- One batch settling under `Promise.all`: `order` is the order in which the
`batch.map(processFn)` promises complete; each completion records its input
index and its result. -/
def settleBatch {α β : Type} (batch : List α) (processFn : α → β)
    (order : List Nat) : List (Nat × β) :=
  order.filterMap (fun i => (batch.get? i).map (fun a => (i, processFn a)))

/-- `Promise.all` assembles the result array by input index, whatever the
completion order was. -/
def collectByIndex {β : Type} (n : Nat) (settled : List (Nat × β)) :
    List (Option β) :=
  (List.range n).map (fun i => (settled.find? (fun p => p.1 == i)).map (·.2))

/-! ### `src/server.js` — deal records, the bootstrap fetch `fetchAllDeals`
and the change-detection reconciler `fetchChangedDeals`. -/

/-- A deal record as produced by the detail path of `fetchChangedDeals`
(`src/server.js:453-465`) and stored in the deals snapshot. The bootstrap
path `fetchAllDeals` produces the same shape except that it never sets
`lastModifiedDate` (see `fetchAllDeals` below). `lastMeetingDate` carries the
epoch value of the ISO string. -/
structure Deal where
  id : String
  dealName : String
  dealStage : Option String
  dealStageLabel : String
  companyName : String
  companyId : Option String
  lastMeetingDate : Option Nat
  primaryContact : String
  primaryContactId : Option String
  lastModifiedDate : Option String
  daysInStage : Option Nat
deriving DecidableEq

/-- One entry of the cheap change-detection probe
`GET /crm/v3/objects/deals?properties=hs_lastmodifieddate`:
just the id and the modification marker. -/
structure ListingDeal where
  id : String
  hs_lastmodifieddate : Option String
deriving DecidableEq

/-- One entry of the full bootstrap listing
(`GET /crm/v3/objects/deals?properties=dealname,dealstage,...,hs_lastmodifieddate`). -/
structure BulkDeal where
  id : String
  dealname : Option String
  dealstage : Option String
  hs_lastmodifieddate : Option String
deriving DecidableEq

/-- The sub-entity joins `fetchAllDeals` performs per deal (company name and
meeting date via the company association, contact name, stage label from the
pipeline-stages cache, and `daysInStage` from the stage history): external
calls collapsed into one oracle. `stageLabel = none` models a stage id absent
from `stages.stagesMap`. -/
structure SubEntityData where
  companyName : String
  companyId : Option String
  lastMeetingDate : Option Nat
  primaryContact : String
  primaryContactId : Option String
  daysInStage : Option Nat
  stageLabel : Option String
deriving DecidableEq

/-- `fetchAllDeals()` (`src/server.js:196-322`): fetch the full listing, join
sub-entities per deal (in `processBatch` groups), and build the snapshot
records. The returned object (`src/server.js:306-317`) has no
`lastModifiedDate` field even though `hs_lastmodifieddate` was requested, so
every bootstrap record carries `lastModifiedDate = none`. -/
def fetchAllDeals (bulk : List BulkDeal) (sub : BulkDeal → SubEntityData) :
    List Deal :=
  (processBatch bulk (fun deal =>
    let e := sub deal
    { id := deal.id
      dealName := deal.dealname.getD "Untitled Deal"
      dealStage := deal.dealstage
      dealStageLabel := e.stageLabel.getD (deal.dealstage.getD "N/A")
      companyName := e.companyName
      companyId := e.companyId
      lastMeetingDate := e.lastMeetingDate
      primaryContact := e.primaryContact
      primaryContactId := e.primaryContactId
      lastModifiedDate := none
      daysInStage := e.daysInStage }) BATCH_SIZE BATCH_DELAY).1

/-- The per-id detail fetch of `fetchChangedDeals` (`src/server.js:392-469`):
the whole `try { ... } catch (error) { console.error(...); return null; }`
block, so an upstream failure becomes `null` for that id only. -/
def attemptFetchDeal (rawFetch : String → Except String Deal) (dealId : String) :
    Option Deal :=
  match rawFetch dealId with
  | Except.ok d => some d
  | Except.error _ => none

/-- Outcome of one `fetchChangedDeals` pass: the merged collection it returns
and the ids it ran the per-deal detail fetch for. -/
structure DiffOutcome where
  merged : List Deal
  fetchedDetailIds : List String
deriving DecidableEq

/-- The `cachedDealsMap` of `fetchChangedDeals`
(`new Map(cachedDeals.data.map(deal => [deal.id, deal.lastModifiedDate]))`). -/
def cachedDealsMapOf (cached : List Deal) : List (String × Option String) :=
  cached.map (fun d => (d.id, d.lastModifiedDate))

/-- The `changedDealIds` of `fetchChangedDeals`: listing entries whose
`hs_lastmodifieddate` is falsy-or-different in `cachedDealsMap`. -/
def changedDealIdsOf (listing : List ListingDeal) (cached : List Deal) :
    List String :=
  (listing.filter (fun deal =>
    let dealModified := deal.hs_lastmodifieddate
    let cachedModified := (jsMapGet (cachedDealsMapOf cached) deal.id).join
    optStrFalsy cachedModified || decide (dealModified ≠ cachedModified))).map
    (·.id)

/-- The `deletedDealIds` of `fetchChangedDeals`: cached ids absent from the
fresh listing. -/
def deletedDealIdsOf (listing : List ListingDeal) (cached : List Deal) :
    List String :=
  (cached.filter (fun d => ! (listing.map (·.id)).contains d.id)).map (·.id)

/-- The `updatedDeals` of `fetchChangedDeals`: per-changed-id detail fetches
run through `processBatch`, each failure caught to `null`. -/
def updatedDealsOf (listing : List ListingDeal) (cached : List Deal)
    (rawFetch : String → Except String Deal) : List (Option Deal) :=
  (processBatch (changedDealIdsOf listing cached) (attemptFetchDeal rawFetch)
    BATCH_SIZE BATCH_DELAY).1

/-- The `updatedDealsMap` of `fetchChangedDeals`: successful fetches keyed by
deal id. -/
def updatedDealsMapOf (listing : List ListingDeal) (cached : List Deal)
    (rawFetch : String → Except String Deal) : List (String × Deal) :=
  ((updatedDealsOf listing cached rawFetch).filterMap id).map
    (fun d => (d.id, d))

/-- The `mergedDeals` of `fetchChangedDeals` before new deals are appended:
drop deleted ids, substitute fetched records by id. -/
def mergedDealsOf (listing : List ListingDeal) (cached : List Deal)
    (rawFetch : String → Except String Deal) : List Deal :=
  (cached.filter
      (fun d => ! (deletedDealIdsOf listing cached).contains d.id)).map
    (fun d => (jsMapGet (updatedDealsMapOf listing cached rawFetch) d.id).getD d)

/-- The new deals `fetchChangedDeals` appends: successful fetches whose id
was not a `cachedDealsMap` key. -/
def newDealsOf (listing : List ListingDeal) (cached : List Deal)
    (rawFetch : String → Except String Deal) : List Deal :=
  (updatedDealsOf listing cached rawFetch).filterMap (fun od => od.bind
    (fun d => if jsMapHas (cachedDealsMapOf cached) d.id then none else some d))

/-- `fetchChangedDeals()` (`src/server.js:346-489`). Fetches the cheap
listing (`currentDeals`); with no usable cache it falls back to
`fetchAllDeals`. Otherwise it partitions into `changedDealIds` and
`deletedDealIds`, returns the cache unchanged when both are empty, else
detail-fetches only the changed ids via `processBatch` and merges. The
function's local bindings are the `…Of` definitions above. -/
def fetchChangedDeals (listing : List ListingDeal)
    (cachedDeals : Option (Snapshot (List Deal)))
    (rawFetch : String → Except String Deal)
    (bulk : List BulkDeal) (sub : BulkDeal → SubEntityData) : DiffOutcome :=
  match cachedDeals with
  | none => ⟨fetchAllDeals bulk sub, []⟩
  | some snap =>
    if (changedDealIdsOf listing snap.data).isEmpty &&
        (deletedDealIdsOf listing snap.data).isEmpty then
      ⟨snap.data, []⟩
    else
      ⟨mergedDealsOf listing snap.data rawFetch ++
          newDealsOf listing snap.data rawFetch,
        changedDealIdsOf listing snap.data⟩

/-! ### `src/server.js` — the meeting-identity cache flow `getLastMeetingDate`. -/

/-- The meeting properties requested per meeting detail fetch
(`hs_meeting_start_time`, `hs_timestamp`); date strings carried as epoch
values, with `none` for an absent or empty property. -/
structure MeetingProps where
  hs_meeting_start_time : Option Nat
  hs_timestamp : Option Nat
deriving DecidableEq

/-- The per-meeting fetch of `getLastMeetingDate` (`src/server.js:69-79`):
`try { GET /crm/v3/objects/meetings/:id } catch { return null }`. -/
def attemptFetchMeeting (rawFetch : String → Except String MeetingProps)
    (meetingId : String) : Option MeetingProps :=
  match rawFetch meetingId with
  | Except.ok m => some m
  | Except.error _ => none

/-- Outcome of one `getLastMeetingDate` call for a company: its return value,
the meeting-cache row after the call, and the ids it detail-fetched. -/
structure MeetingOutcome where
  lastMeetingDate : Option Nat
  newRow : Option MeetingRow
  fetchedIds : List String
deriving DecidableEq

/-- `getLastMeetingDate(companyId)` (`src/server.js:35-107`), for one company.
`assocMeetingIds` is the association listing result. Steps: sort the current
ids; read the meeting cache with `Infinity` max age; on a cache row whose
parsed-and-sorted stored ids equal the current sorted ids, return the cached
`lastMeetingDate` with no fetches. Otherwise: an empty current set is stored
as the explicit empty set with a `null` date; else every current id is
detail-fetched via `processBatch(ids, ..., 5, 500)`, failed fetches and items
with no `hs_meeting_start_time || hs_timestamp` value are dropped, and
`Math.max` of the remaining dates (or `null` when none remain) is stored with
the new sorted id set and returned. -/
def getLastMeetingDate (assocMeetingIds : List String)
    (rawFetch : String → Except String MeetingProps)
    (row : Option MeetingRow) (now : Nat) : MeetingOutcome :=
  let currentMeetingIds := sortIds assocMeetingIds
  let cached := getMeetingCache row ⊤ now
  let cacheHit : Option (Option Nat) :=
    match cached with
    | some c =>
      if currentMeetingIds = sortIds (c.meetingIds.getD []) then
        some c.lastMeetingDate
      else none
    | none => none
  match cacheHit with
  | some d => ⟨d, row, []⟩
  | none =>
    if currentMeetingIds.isEmpty then
      ⟨none, some (setMeetingCache none (some []) now), []⟩
    else
      let meetings :=
        (processBatch currentMeetingIds (attemptFetchMeeting rawFetch) 5 500).1
      let meetingDates := (meetings.filterMap id).filterMap
        (fun m => jsOrNat m.hs_meeting_start_time m.hs_timestamp)
      match meetingDates with
      | [] =>
        ⟨none, some (setMeetingCache none (some currentMeetingIds) now),
          currentMeetingIds⟩
      | d :: ds =>
        let lastMeetingDate := ds.foldl max d
        ⟨some lastMeetingDate,
          some (setMeetingCache (some lastMeetingDate) (some currentMeetingIds) now),
          currentMeetingIds⟩

/-! ### `src/nextSteps.js` — engagement processing and the suggestion gate. -/

/-- A raw HubSpot engagement item (`engagement` part of
`/engagements/v1/engagements/associated/...` results). Content/metadata
fields are omitted: no claim concerns them. -/
structure RawEngagement where
  id : String
  type : String
  timestamp : Option Nat
  createdAt : Option Nat
deriving DecidableEq

/-- A processed engagement as built by `fetchCompanyEngagements` /
`fetchContactEngagements`. -/
structure Engagement where
  id : String
  type : String
  timestamp : Nat
  direction : Option String
deriving DecidableEq

/-- `e.type.includes('EMAIL')`. -/
def typeIncludesEmail (t : String) : Bool :=
  "EMAIL".data.isPrefixOf t.data ||
    (t.data.tails.any (fun suf => "EMAIL".data.isPrefixOf suf))

/-- Processing of one kept raw engagement: id, type,
`timestamp: engagement.timestamp || engagement.createdAt` (an engagement with
neither is given 0), and the derived direction. -/
def processRawEngagement (raw : RawEngagement) : Engagement :=
  { id := raw.id
    type := raw.type
    timestamp := (jsOrNat raw.timestamp raw.createdAt).getD 0
    direction :=
      if raw.type = "INCOMING_EMAIL" then some "inbound"
      else if raw.type = "EMAIL" then some "outbound" else none }

/-- The descending-timestamp comparator
`processed.sort((a, b) => b.timestamp - a.timestamp)` induces. -/
def newestFirst (a b : Engagement) : Prop := b.timestamp ≤ a.timestamp

instance : DecidableRel newestFirst := fun a b => Nat.decLe b.timestamp a.timestamp

/-- `fetchCompanyEngagements(companyId)` (`src/nextSteps.js:38-99`) after the
HTTP fetch: keep `EMAIL`/`INCOMING_EMAIL`/`NOTE` items, process them, sort
newest-first, then return up to 3 notes followed by up to 3 emails. -/
def fetchCompanyEngagements (rawList : List RawEngagement) : List Engagement :=
  let processed := (rawList.filter (fun e =>
    e.type == "EMAIL" || e.type == "INCOMING_EMAIL" || e.type == "NOTE")).map
    processRawEngagement
  let sorted := processed.insertionSort newestFirst
  let emails := (sorted.filter (fun e => typeIncludesEmail e.type)).take 3
  let notes := (sorted.filter (fun e => e.type == "NOTE")).take 3
  notes ++ emails

/-- `fetchContactEngagements(contactId)` (`src/nextSteps.js:176-216`): same
filtering, sorting and notes-then-emails selection as the company variant. -/
def fetchContactEngagements (rawList : List RawEngagement) : List Engagement :=
  let processed := (rawList.filter (fun e =>
    e.type == "EMAIL" || e.type == "INCOMING_EMAIL" || e.type == "NOTE")).map
    processRawEngagement
  let sorted := processed.insertionSort newestFirst
  let emails := (sorted.filter (fun e => typeIncludesEmail e.type)).take 3
  let notes := (sorted.filter (fun e => e.type == "NOTE")).take 3
  notes ++ emails

/-- `db.getLastEngagementTimestamp(companyId)` (`src/db.js:432-446`), memory
backing: `null` with no stored engagements, else `Math.max` of their
timestamps. -/
def getLastEngagementTimestamp (engagements : List Engagement) : Option Nat :=
  match engagements with
  | [] => none
  | e :: es => some (es.foldl (fun m x => max m x.timestamp) e.timestamp)

/-- A `deal_next_steps` record (`db.saveNextStep` / `db.getNextStep`). -/
structure NextStepRow where
  next_step : String
  last_engagement_timestamp : Option Nat
deriving DecidableEq

/-- `generateNextStep(engagements, ...)` (`src/nextSteps.js:221-325`) as seen
by its caller: a fixed sentence and no model call on an empty engagement
list, otherwise one call of the suggestion generator (`ai`; a generator
failure is caught inside and yields a fixed error text, which the oracle
may return). The Bool records whether the generator was invoked. -/
def generateNextStep (engagements : List Engagement)
    (ai : List Engagement → String) : String × Bool :=
  if engagements.isEmpty then ("No recent activity. Reach out to re-engage", false)
  else (ai engagements, true)

/-- The deal fields `generateNextStepForDeal` reads. -/
structure NSDeal where
  id : String
  companyId : Option String
  dealName : String
  companyName : Option String
  companyDomain : Option String
deriving DecidableEq

/-- Outcome of one `generateNextStepForDeal` call: the returned text, the
`deal_next_steps` row written by `db.saveNextStep` (`none` when nothing was
written), whether the suggestion generator ran, and the engagements saved to
the store via `db.saveEngagement`. -/
structure GenOutcome where
  text : String
  savedRow : Option NextStepRow
  generatorCalled : Bool
  savedEngagements : List Engagement
deriving DecidableEq

/-- `generateNextStepForDeal(deal, contactId, forceRefresh)`
(`src/nextSteps.js:330-389`). `existingNextStep` is `db.getNextStep(dealId)`;
`latestEngagementTimestamp` is `db.getLastEngagementTimestamp(storageId)`;
`companyRaw`/`contactRaw` are the engagement listings the two fetchers would
process; `ai` is the suggestion generator (the upcoming-meetings context it
receives is absorbed into the oracle). Without a truthy company or contact id
it returns a fixed text. Unless `forceRefresh`, a stored record whose truthy
stored timestamp is `>=` a truthy current latest timestamp is returned as-is
with no fetch, no generation and no write. Otherwise engagements are fetched
(company first, contact as fallback), saved, a suggestion is produced and
saved with `engagements[0].timestamp` (or `null` on an empty list). -/
def generateNextStepForDeal (deal : NSDeal) (contactId : Option String)
    (forceRefresh : Bool) (existingNextStep : Option NextStepRow)
    (latestEngagementTimestamp : Option Nat)
    (companyRaw contactRaw : List RawEngagement)
    (ai : List Engagement → String) : GenOutcome :=
  if ! (optStrTruthy deal.companyId || optStrTruthy contactId) then
    ⟨"No company or contact associated", none, false, []⟩
  else
    let cachedReturn : Option String :=
      if forceRefresh then none
      else
        match existingNextStep with
        | none => none
        | some r =>
          if optNatTruthy r.last_engagement_timestamp &&
              optNatTruthy latestEngagementTimestamp &&
              decide (latestEngagementTimestamp.getD 0 ≤
                r.last_engagement_timestamp.getD 0) then
            some r.next_step
          else none
    match cachedReturn with
    | some t => ⟨t, none, false, []⟩
    | none =>
      let engagements0 :=
        if optStrTruthy deal.companyId then fetchCompanyEngagements companyRaw
        else []
      let engagements :=
        if engagements0.isEmpty && optStrTruthy contactId then
          fetchContactEngagements contactRaw
        else engagements0
      let generated := generateNextStep engagements ai
      let lastEngagementTimestamp :=
        match engagements with
        | [] => none
        | e :: _ => some e.timestamp
      ⟨generated.1, some ⟨generated.1, lastEngagementTimestamp⟩, generated.2,
        engagements⟩

/-! ### C8 — key-value cache round trip and miss conditions. -/

/-- C8: immediately after `setCompanyCache(k, v)`, `getCompanyCache(k, maxAge)`
returns `v` for any `maxAge > 0`; and a read misses both when no entry exists
for `k` and when the elapsed time since the entry's `cachedAt` exceeds
`maxAge`, the stored value notwithstanding. -/
theorem companyCache_roundTrip_and_miss {α : Type}
    (store : String → Option (CacheEntry α)) (k : String) (v : α)
    (now : Nat) (maxAgeMs : ℕ∞) (hpos : 0 < maxAgeMs) :
    getCompanyCache (setCompanyCache store k v now) k maxAgeMs now = some v ∧
    (∀ st : String → Option (CacheEntry α), st k = none →
      getCompanyCache st k maxAgeMs now = none) ∧
    (∀ (st : String → Option (CacheEntry α)) (e : CacheEntry α) (now' : Nat),
      st k = some e → ((now' - e.cachedAt : Nat) : ℕ∞) > maxAgeMs →
      getCompanyCache st k maxAgeMs now' = none) := by
  have _ := hpos
  refine ⟨?_, ?_, ?_⟩
  · simp [getCompanyCache, setCompanyCache, Nat.sub_self]
  · intro st h
    simp [getCompanyCache, h]
  · intro st e now' h hage
    simp only [getCompanyCache, h]
    rw [if_pos hage]

/-- C8 witness at a concrete key, value, clock and max age. -/
theorem companyCache_roundTrip_witness :
    (0 : ℕ∞) < 1000 ∧
    getCompanyCache (setCompanyCache (fun _ => (none : Option (CacheEntry Nat)))
      "c1" 7 50) "c1" 1000 50 = some 7 :=
  ⟨by decide,
    (companyCache_roundTrip_and_miss (fun _ => none) "c1" 7 50 1000 (by decide)).1⟩

/-! ### C9 — single snapshot slot. -/

/-- C9: a completed `setDealsCache` write supersedes all prior snapshots —
the in-memory backing overwrites its single slot, the durable backing deletes
every row and inserts exactly one — and the following `getDealsCache` returns
the new data with its write-time `lastFetched`. -/
theorem dealsCache_single_slot {α : Type} (tbl : List (DealsRow α))
    (data : α) (now : Nat) :
    getDealsCacheMem (setDealsCacheMem data now) = some ⟨data, now⟩ ∧
    setDealsCacheDb tbl data now = [⟨data, now⟩] ∧
    getDealsCacheDb (setDealsCacheDb tbl data now) = some ⟨data, now⟩ := by
  refine ⟨rfl, rfl, ?_⟩
  simp [getDealsCacheDb, setDealsCacheDb, List.insertionSort]

/-! ### C3 — batch-scheduler lemmas. -/

theorem processBatch_fst {α β : Type} (items : List α) (f : α → β)
    (bs δ : Nat) (hbs : 0 < bs) :
    (processBatch items f bs δ).1 = items.map f := by
  induction items, f, bs, δ using processBatch.induct with
  | case1 f bs δ => simp [processBatch]
  | case2 f δ x xs => omega
  | case3 f δ x xs b rest hrest =>
    have hdrop : List.drop (b + 1) (x :: xs) = [] := List.isEmpty_iff.mp hrest
    have hsplit := List.take_append_drop (b + 1) (x :: xs)
    rw [hdrop, List.append_nil] at hsplit
    simp only [processBatch, hrest, if_true]
    rw [hsplit]
  | case4 f δ x xs b rest hrest ih =>
    simp only [processBatch, hrest, Bool.false_eq_true, if_false]
    rw [ih (Nat.succ_pos b)]
    rw [← List.map_append, List.take_append_drop]

theorem batchSlices_flatten {α : Type} (items : List α) (bs : Nat) (hbs : 0 < bs) :
    (batchSlices items bs).flatten = items := by
  induction items, bs using batchSlices.induct with
  | case1 bs => simp [batchSlices]
  | case2 x xs => omega
  | case3 x xs b ih =>
    simp only [batchSlices, List.flatten_cons]
    rw [ih (Nat.succ_pos b), List.take_append_drop]

theorem batchSlices_mem {α : Type} (items : List α) (bs : Nat) (hbs : 0 < bs) :
    ∀ g ∈ batchSlices items bs, g ≠ [] ∧ g.length ≤ bs := by
  induction items, bs using batchSlices.induct with
  | case1 bs => intro g hg; simp [batchSlices] at hg
  | case2 x xs => omega
  | case3 x xs b ih =>
    intro g hg
    simp only [batchSlices, List.mem_cons] at hg
    rcases hg with rfl | hg
    · refine ⟨by simp, ?_⟩
      have := List.length_take_le (b + 1) (x :: xs)
      omega
    · exact ih (Nat.succ_pos b) g hg

theorem batchSlices_ne_nil {α : Type} (items : List α) (bs : Nat)
    (hbs : 0 < bs) (hne : items ≠ []) : batchSlices items bs ≠ [] := by
  cases items with
  | nil => exact absurd rfl hne
  | cons x xs =>
    cases bs with
    | zero => omega
    | succ b => simp [batchSlices]

theorem batchSlices_dropLast {α : Type} (items : List α) (bs : Nat)
    (hbs : 0 < bs) :
    ∀ g ∈ (batchSlices items bs).dropLast, g.length = bs := by
  induction items, bs using batchSlices.induct with
  | case1 bs => intro g hg; simp [batchSlices] at hg
  | case2 x xs => omega
  | case3 x xs b ih =>
    intro g hg
    by_cases hrest : List.drop (b + 1) (x :: xs) = []
    · simp only [batchSlices] at hg
      rw [hrest] at hg
      simp [batchSlices] at hg
    · have hslices := batchSlices_ne_nil (List.drop (b + 1) (x :: xs)) (b + 1)
        (Nat.succ_pos b) hrest
      simp only [batchSlices] at hg
      rw [List.dropLast_cons_of_ne_nil hslices] at hg
      rcases List.mem_cons.mp hg with rfl | hg
      · have hlen : b + 1 ≤ (x :: xs).length := by
          by_contra hlt
          exact hrest (List.drop_eq_nil_of_le (by omega))
        rw [List.length_take]
        exact Nat.min_eq_left hlen
      · exact ih (Nat.succ_pos b) g hg

theorem traceGroups_ne_nil {α β : Type} :
    ∀ es : List (BatchEvent α β), traceGroups es ≠ [] := by
  intro es
  induction es with
  | nil => simp [traceGroups]
  | cons e rest ih =>
    cases e with
    | call a r =>
      simp only [traceGroups]
      cases h : traceGroups rest with
      | nil => simp
      | cons g gs => simp
    | pause d => simp [traceGroups]

theorem traceGroups_calls_append {α β : Type} (f : α → β) (batch : List α)
    (es : List (BatchEvent α β)) (g : List α) (gs : List (List α))
    (h : traceGroups es = g :: gs) :
    traceGroups (batch.map (fun a => BatchEvent.call a (f a)) ++ es) =
      (batch ++ g) :: gs := by
  induction batch with
  | nil => simpa using h
  | cons a batch ih =>
    simp only [List.map_cons, List.cons_append, traceGroups, List.append_eq, ih]

theorem pauseCount_calls_append {α β : Type} (f : α → β) (batch : List α)
    (es : List (BatchEvent α β)) :
    pauseCount (batch.map (fun a => BatchEvent.call a (f a)) ++ es) =
      pauseCount es := by
  induction batch with
  | nil => rfl
  | cons a batch ih => simpa [pauseCount] using ih

theorem traceGroups_processBatch {α β : Type} (items : List α) (f : α → β)
    (bs δ : Nat) (hbs : 0 < bs) (hne : items ≠ []) :
    traceGroups (processBatch items f bs δ).2 = batchSlices items bs := by
  induction items, f, bs, δ using processBatch.induct with
  | case1 f bs δ => exact absurd rfl hne
  | case2 f δ x xs => omega
  | case3 f δ x xs b rest hrest =>
    have hdrop : List.drop (b + 1) (x :: xs) = [] := List.isEmpty_iff.mp hrest
    simp only [processBatch, hrest, if_true, batchSlices]
    rw [hdrop]
    rw [← List.append_nil (List.map (fun a => BatchEvent.call a (f a))
      (List.take (b + 1) (x :: xs)))]
    rw [traceGroups_calls_append f _ ([] : List (BatchEvent α β)) [] [] rfl]
    simp [batchSlices]
  | case4 f δ x xs b rest hrest ih =>
    have hdrop : List.drop (b + 1) (x :: xs) ≠ [] :=
      fun h => hrest (List.isEmpty_iff.mpr h)
    simp only [processBatch, hrest, Bool.false_eq_true, if_false, batchSlices]
    have hinner : traceGroups (BatchEvent.pause δ ::
        (processBatch (List.drop (b + 1) (x :: xs)) f (b + 1) δ).2) =
        [] :: batchSlices (List.drop (b + 1) (x :: xs)) (b + 1) := by
      simp only [traceGroups]
      rw [ih (Nat.succ_pos b) hdrop]
    rw [traceGroups_calls_append f _ _ _ _ hinner]
    simp

theorem pauseCount_processBatch {α β : Type} (items : List α) (f : α → β)
    (bs δ : Nat) (hbs : 0 < bs) :
    pauseCount (processBatch items f bs δ).2 = (batchSlices items bs).length - 1 := by
  induction items, f, bs, δ using processBatch.induct with
  | case1 f bs δ => simp [processBatch, batchSlices, pauseCount]
  | case2 f δ x xs => omega
  | case3 f δ x xs b rest hrest =>
    have hdrop : List.drop (b + 1) (x :: xs) = [] := List.isEmpty_iff.mp hrest
    simp only [processBatch, hrest, if_true, batchSlices]
    rw [hdrop]
    rw [← List.append_nil (List.map (fun a => BatchEvent.call a (f a))
      (List.take (b + 1) (x :: xs)))]
    rw [pauseCount_calls_append]
    simp [pauseCount, batchSlices]
  | case4 f δ x xs b rest hrest ih =>
    have hdrop : List.drop (b + 1) (x :: xs) ≠ [] :=
      fun h => hrest (List.isEmpty_iff.mpr h)
    have hslices := batchSlices_ne_nil (List.drop (b + 1) (x :: xs)) (b + 1)
      (Nat.succ_pos b) hdrop
    have hlen : (batchSlices (List.drop (b + 1) (x :: xs)) (b + 1)).length ≠ 0 :=
      fun h => hslices (List.length_eq_zero.mp h)
    have ihh : pauseCount (processBatch (List.drop (b + 1) (x :: xs)) f (b + 1) δ).2 =
        (batchSlices (List.drop (b + 1) (x :: xs)) (b + 1)).length - 1 :=
      ih (Nat.succ_pos b)
    simp only [processBatch, hrest, Bool.false_eq_true, if_false, batchSlices]
    rw [pauseCount_calls_append]
    simp only [pauseCount, List.length_cons]
    omega

theorem pause_value_processBatch {α β : Type} (items : List α) (f : α → β)
    (bs δ : Nat) :
    ∀ d, BatchEvent.pause d ∈ (processBatch items f bs δ).2 → d = δ := by
  induction items, f, bs, δ using processBatch.induct with
  | case1 f bs δ => intro d hd; simp [processBatch] at hd
  | case2 f δ x xs => intro d hd; simp [processBatch] at hd
  | case3 f δ x xs b rest hrest =>
    intro d hd
    simp only [processBatch, hrest, if_true] at hd
    rcases List.mem_map.mp hd with ⟨a, _, ha⟩
    exact absurd ha (by simp)
  | case4 f δ x xs b rest hrest ih =>
    intro d hd
    simp only [processBatch, hrest, Bool.false_eq_true, if_false] at hd
    rcases List.mem_append.mp hd with hd | hd
    · rcases List.mem_map.mp hd with ⟨a, _, ha⟩
      exact absurd ha (by simp)
    · rcases List.mem_cons.mp hd with hd | hd
      · injection hd
      · exact ih d hd

theorem calls_mem_processBatch {α β : Type} (items : List α) (f : α → β)
    (bs δ : Nat) (hbs : 0 < bs) :
    ∀ a ∈ items, BatchEvent.call a (f a) ∈ (processBatch items f bs δ).2 := by
  induction items, f, bs, δ using processBatch.induct with
  | case1 f bs δ => intro a ha; simp at ha
  | case2 f δ x xs => omega
  | case3 f δ x xs b rest hrest =>
    intro a ha
    have hdrop : List.drop (b + 1) (x :: xs) = [] := List.isEmpty_iff.mp hrest
    have hsplit := List.take_append_drop (b + 1) (x :: xs)
    rw [hdrop, List.append_nil] at hsplit
    rw [← hsplit] at ha
    simp only [processBatch, hrest, if_true]
    exact List.mem_map.mpr ⟨a, ha, rfl⟩
  | case4 f δ x xs b rest hrest ih =>
    intro a ha
    rw [← List.take_append_drop (b + 1) (x :: xs)] at ha
    simp only [processBatch, hrest, Bool.false_eq_true, if_false]
    rcases List.mem_append.mp ha with ha | ha
    · exact List.mem_append.mpr (Or.inl (List.mem_map.mpr ⟨a, ha, rfl⟩))
    · exact List.mem_append.mpr (Or.inr (List.mem_cons.mpr
        (Or.inr (ih (Nat.succ_pos b) a ha))))

theorem getLast_processBatch {α β : Type} (items : List α) (f : α → β)
    (bs δ : Nat) (hbs : 0 < bs) (hne : items ≠ []) :
    ∃ a, (processBatch items f bs δ).2.getLast? = some (BatchEvent.call a (f a)) := by
  induction items, f, bs, δ using processBatch.induct with
  | case1 f bs δ => exact absurd rfl hne
  | case2 f δ x xs => omega
  | case3 f δ x xs b rest hrest =>
    simp only [processBatch, hrest, if_true]
    rw [List.getLast?_map]
    have htake : List.take (b + 1) (x :: xs) ≠ [] := by simp
    rcases Option.isSome_iff_exists.mp (List.getLast?_isSome.mpr htake) with ⟨a, ha⟩
    exact ⟨a, by rw [ha]; rfl⟩
  | case4 f δ x xs b rest hrest ih =>
    have hdrop : List.drop (b + 1) (x :: xs) ≠ [] :=
      fun h => hrest (List.isEmpty_iff.mpr h)
    rcases ih (Nat.succ_pos b) hdrop with ⟨a, ha⟩
    refine ⟨a, ?_⟩
    simp only [processBatch, hrest, Bool.false_eq_true, if_false]
    rw [List.getLast?_append]
    have hcons : (BatchEvent.pause δ ::
        (processBatch (List.drop (b + 1) (x :: xs)) f (b + 1) δ).2).getLast? =
        some (BatchEvent.call a (f a)) := by
      have hn : (processBatch (List.drop (b + 1) (x :: xs)) f (b + 1) δ).2 ≠ [] := by
        intro h0
        rw [h0] at ha
        simp at ha
      cases hl : (processBatch (List.drop (b + 1) (x :: xs)) f (b + 1) δ).2 with
      | nil => exact absurd hl hn
      | cons e es =>
        rw [hl] at ha
        rw [List.getLast?_cons_cons]
        exact ha
    rw [hcons]
    rfl

theorem settleBatch_mem {α β : Type} (batch : List α) (f : α → β)
    (order : List Nat) :
    ∀ p ∈ settleBatch batch f order,
      ∃ hp : p.1 < batch.length, p.2 = f (batch.get ⟨p.1, hp⟩) := by
  intro p hp
  rcases List.mem_filterMap.mp hp with ⟨i, _, heq⟩
  rcases Option.map_eq_some'.mp heq with ⟨a, hga, hpa⟩
  rcases List.get?_eq_some.mp hga with ⟨hlt, hget⟩
  subst hpa
  exact ⟨hlt, by rw [hget]⟩

theorem collectByIndex_settleBatch {α β : Type} (batch : List α) (f : α → β)
    (order : List Nat) (h : order.Perm (List.range batch.length)) :
    collectByIndex batch.length (settleBatch batch f order) =
      batch.map (fun a => some (f a)) := by
  have find_some : ∀ i (hi : i < batch.length),
      ∃ q, (settleBatch batch f order).find? (fun p => p.1 == i) = some q ∧
        q.2 = f (batch.get ⟨i, hi⟩) := by
    intro i hi
    have hmemi : i ∈ order := h.mem_iff.mpr (List.mem_range.mpr hi)
    have hexists : ∃ p ∈ settleBatch batch f order, (p.1 == i) = true := by
      refine ⟨(i, f (batch.get ⟨i, hi⟩)), ?_, by simp⟩
      apply List.mem_filterMap.mpr
      refine ⟨i, hmemi, ?_⟩
      rw [List.get?_eq_some.mpr ⟨hi, rfl⟩]
      rfl
    rcases Option.isSome_iff_exists.mp (List.find?_isSome.mpr hexists) with ⟨q, hq⟩
    have hqi : q.1 = i := by simpa using List.find?_some hq
    rcases settleBatch_mem batch f order q (List.mem_of_find?_eq_some hq) with
      ⟨hp, hval⟩
    refine ⟨q, hq, ?_⟩
    subst hqi
    exact hval
  apply List.ext_getElem
  · simp [collectByIndex]
  · intro n h1 h2
    have hn : n < batch.length := by simpa using h2
    rcases find_some n hn with ⟨q, hq, hval⟩
    simp only [collectByIndex, List.getElem_map, List.getElem_range]
    rw [hq]
    simp [hval]

/-! ### C3 — the batch scheduler claim. -/

/-- C3: for `batchSize > 0`, `processBatch(items, asyncFn, batchSize, delayMs)`
works through the contiguous slices of `batchSize` items (`batchSlices`):
its event trace splits at the pauses exactly into those groups (so a group
settles fully before the next starts), every item is invoked, each pause is
`delayMs` and there are `groups − 1` of them — none after the last group,
whose final event is a call; the result list is `asyncFn` mapped in input
order; and within a group, `Promise.all` yields the same indexed results for
every completion order. -/
theorem processBatch_spec {α β : Type} (items : List α) (f : α → β)
    (bs δ : Nat) (hbs : 0 < bs) :
    (processBatch items f bs δ).1 = items.map f ∧
    (batchSlices items bs).flatten = items ∧
    (∀ g ∈ batchSlices items bs, g ≠ [] ∧ g.length ≤ bs) ∧
    (∀ g ∈ (batchSlices items bs).dropLast, g.length = bs) ∧
    (items ≠ [] →
      traceGroups (processBatch items f bs δ).2 = batchSlices items bs) ∧
    (∀ a ∈ items, BatchEvent.call a (f a) ∈ (processBatch items f bs δ).2) ∧
    (∀ d, BatchEvent.pause d ∈ (processBatch items f bs δ).2 → d = δ) ∧
    pauseCount (processBatch items f bs δ).2 = (batchSlices items bs).length - 1 ∧
    (items ≠ [] → ∃ a, (processBatch items f bs δ).2.getLast? =
      some (BatchEvent.call a (f a))) ∧
    (∀ (batch : List α) (order : List Nat),
      order.Perm (List.range batch.length) →
      collectByIndex batch.length (settleBatch batch f order) =
        batch.map (fun a => some (f a))) :=
  ⟨processBatch_fst items f bs δ hbs,
   batchSlices_flatten items bs hbs,
   batchSlices_mem items bs hbs,
   batchSlices_dropLast items bs hbs,
   fun hne => traceGroups_processBatch items f bs δ hbs hne,
   calls_mem_processBatch items f bs δ hbs,
   pause_value_processBatch items f bs δ,
   pauseCount_processBatch items f bs δ hbs,
   fun hne => getLast_processBatch items f bs δ hbs hne,
   fun batch order hp => collectByIndex_settleBatch batch f order hp⟩

/-- C3 witness: the scheduler run on five items with batch size 2 returns the
mapped results in input order. -/
theorem processBatch_spec_witness :
    (0 : Nat) < 2 ∧
    (processBatch [10, 20, 30, 40, 50] (fun n : Nat => n + 1) 2 7).1 =
      [10, 20, 30, 40, 50].map (fun n : Nat => n + 1) :=
  ⟨by decide,
    (processBatch_spec [10, 20, 30, 40, 50] (fun n : Nat => n + 1) 2 7
      (by decide)).1⟩

/-! ### C4 — meeting-identity cache stability lemmas. -/

theorem getMeetingCache_top (r : MeetingRow) (now : Nat) :
    getMeetingCache (some r) ⊤ now = some ⟨r.lastMeetingDate, r.meetingIds⟩ := by
  simp [getMeetingCache]

theorem getLastMeetingDate_hit (ids : List String)
    (rawFetch : String → Except String MeetingProps) (r : MeetingRow) (t : Nat)
    (h : sortIds ids = sortIds (r.meetingIds.getD [])) :
    getLastMeetingDate ids rawFetch (some r) t =
      ⟨r.lastMeetingDate, some r, []⟩ := by
  unfold getLastMeetingDate
  rw [getMeetingCache_top]
  simp only [h, if_true]

theorem getLastMeetingDate_post (ids : List String)
    (rawFetch : String → Except String MeetingProps) (row : Option MeetingRow)
    (t : Nat) :
    ((getLastMeetingDate ids rawFetch row t).newRow = row ∧
      ∃ r, row = some r ∧
        sortIds ids = sortIds (r.meetingIds.getD []) ∧
        (getLastMeetingDate ids rawFetch row t).lastMeetingDate =
          r.lastMeetingDate) ∨
    (∃ r, (getLastMeetingDate ids rawFetch row t).newRow = some r ∧
      r.meetingIds = some (sortIds ids) ∧
      r.lastMeetingDate = (getLastMeetingDate ids rawFetch row t).lastMeetingDate) := by
  cases row with
  | none =>
    unfold getLastMeetingDate
    simp only [getMeetingCache]
    by_cases hemp : (sortIds ids).isEmpty
    · right
      simp only [hemp, if_true]
      refine ⟨_, rfl, ?_, rfl⟩
      simp [setMeetingCache, List.isEmpty_iff.mp hemp]
    · right
      simp only [hemp, Bool.false_eq_true, if_false]
      split
      · exact ⟨_, rfl, rfl, rfl⟩
      · exact ⟨_, rfl, rfl, rfl⟩
  | some r =>
    by_cases hhit : sortIds ids = sortIds (r.meetingIds.getD [])
    · left
      rw [getLastMeetingDate_hit ids rawFetch r t hhit]
      exact ⟨rfl, r, rfl, hhit, rfl⟩
    · right
      unfold getLastMeetingDate
      rw [getMeetingCache_top]
      simp only [hhit, if_false]
      by_cases hemp : (sortIds ids).isEmpty
      · simp only [hemp, if_true]
        refine ⟨_, rfl, ?_, rfl⟩
        simp [setMeetingCache, List.isEmpty_iff.mp hemp]
      · simp only [hemp, Bool.false_eq_true, if_false]
        split
        · exact ⟨_, rfl, rfl, rfl⟩
        · exact ⟨_, rfl, rfl, rfl⟩

/-- C4: a second `getLastMeetingDate` call with the same sorted meeting-id
set returns the first call's `lastMeetingDate` from the cache, performs no
meeting-detail fetches, and leaves the cache row unchanged — whatever
wall-clock time elapsed between the calls (the cache is read with an
`Infinity` max age). -/
theorem meetingIdentity_stable (ids1 ids2 : List String)
    (rawFetch : String → Except String MeetingProps)
    (row : Option MeetingRow) (t1 t2 : Nat)
    (hsame : sortIds ids2 = sortIds ids1) :
    (getLastMeetingDate ids2 rawFetch
        (getLastMeetingDate ids1 rawFetch row t1).newRow t2).lastMeetingDate =
      (getLastMeetingDate ids1 rawFetch row t1).lastMeetingDate ∧
    (getLastMeetingDate ids2 rawFetch
        (getLastMeetingDate ids1 rawFetch row t1).newRow t2).fetchedIds = [] ∧
    (getLastMeetingDate ids2 rawFetch
        (getLastMeetingDate ids1 rawFetch row t1).newRow t2).newRow =
      (getLastMeetingDate ids1 rawFetch row t1).newRow := by
  rcases getLastMeetingDate_post ids1 rawFetch row t1 with
    ⟨hrow, r, hr, hids, hdate⟩ | ⟨r, hrow, hids, hdate⟩
  · have hhit2 : sortIds ids2 = sortIds (r.meetingIds.getD []) :=
      hsame.trans hids
    have h2 : getLastMeetingDate ids2 rawFetch
        (getLastMeetingDate ids1 rawFetch row t1).newRow t2 =
        ⟨r.lastMeetingDate, some r, []⟩ := by
      rw [hrow, hr]
      exact getLastMeetingDate_hit ids2 rawFetch r t2 hhit2
    refine ⟨?_, ?_, ?_⟩
    · rw [h2]
      exact hdate.symm
    · rw [h2]
    · rw [h2]
      exact (hrow.trans hr).symm
  · have hhit2 : sortIds ids2 = sortIds (r.meetingIds.getD []) := by
      rw [hids]
      simpa [hsame] using (sortIds_idem ids1).symm
    have h2 : getLastMeetingDate ids2 rawFetch
        (getLastMeetingDate ids1 rawFetch row t1).newRow t2 =
        ⟨r.lastMeetingDate, some r, []⟩ := by
      rw [hrow]
      exact getLastMeetingDate_hit ids2 rawFetch r t2 hhit2
    refine ⟨?_, ?_, ?_⟩
    · rw [h2]
      exact hdate
    · rw [h2]
    · rw [h2]
      exact hrow.symm

/-- C4 witness: two identical two-id calls against an empty cache row; the
second is served from the identity cache. -/
theorem meetingIdentity_stable_witness :
    sortIds ["m2", "m1"] = sortIds ["m2", "m1"] ∧
    (getLastMeetingDate ["m2", "m1"] (fun _ => Except.ok ⟨some 5, none⟩)
        (getLastMeetingDate ["m2", "m1"] (fun _ => Except.ok ⟨some 5, none⟩)
          none 100).newRow 999999).fetchedIds = [] :=
  ⟨rfl,
    (meetingIdentity_stable ["m2", "m1"] ["m2", "m1"]
      (fun _ => Except.ok ⟨some 5, none⟩) none 100 999999 rfl).2.1⟩

/-! ### C6 — meeting-identity invalidation. -/

theorem foldl_max_mem (d : Nat) (ds : List Nat) :
    ds.foldl max d = d ∨ ds.foldl max d ∈ ds := by
  induction ds generalizing d with
  | nil => left; rfl
  | cons e es ih =>
    rcases ih (max d e) with h | h
    · rcases max_choice d e with he | he
      · left; rw [List.foldl_cons, h, he]
      · right; rw [List.foldl_cons, h, he]; exact List.mem_cons_self e es
    · right; exact List.mem_cons_of_mem e h

theorem le_foldl_max (d : Nat) (ds : List Nat) :
    d ≤ ds.foldl max d ∧ ∀ x ∈ ds, x ≤ ds.foldl max d := by
  induction ds generalizing d with
  | nil => exact ⟨Nat.le_refl d, by simp⟩
  | cons e es ih =>
    rcases ih (max d e) with ⟨h1, h2⟩
    refine ⟨Nat.le_trans (Nat.le_max_left d e) h1, ?_⟩
    intro x hx
    rcases List.mem_cons.mp hx with rfl | hx
    · exact Nat.le_trans (Nat.le_max_right d x) h1
    · exact h2 x hx

/-- The valid meeting dates `getLastMeetingDate` derives for an id set: fetch
each sorted id, drop failed fetches, keep each item's
`hs_meeting_start_time || hs_timestamp` when present. -/
def meetingDatesOf (ids : List String)
    (rawFetch : String → Except String MeetingProps) : List Nat :=
  (((sortIds ids).map (attemptFetchMeeting rawFetch)).filterMap id).filterMap
    (fun m => jsOrNat m.hs_meeting_start_time m.hs_timestamp)

/-- C6: on an identity mismatch — no cache row, or a row whose stored id set
(including the explicitly stored empty set) differs from the current sorted
ids — `getLastMeetingDate` detail-fetches every id of the new sorted set,
writes back the new identity set together with a `lastMeetingDate` that is
the maximum of the fetched items' start/occurred timestamps (items lacking a
timestamp are excluded), stores `null` when no valid timestamp remains, and
returns what it stored. -/
theorem meetingIdentity_invalidation (ids : List String)
    (rawFetch : String → Except String MeetingProps)
    (row : Option MeetingRow) (t : Nat)
    (hmiss : ∀ r, row = some r → sortIds (r.meetingIds.getD []) ≠ sortIds ids) :
    (getLastMeetingDate ids rawFetch row t).fetchedIds = sortIds ids ∧
    (∃ r', (getLastMeetingDate ids rawFetch row t).newRow = some r' ∧
      r'.meetingIds = some (sortIds ids) ∧
      r'.lastMeetingDate = (getLastMeetingDate ids rawFetch row t).lastMeetingDate) ∧
    (meetingDatesOf ids rawFetch = [] ↔
      (getLastMeetingDate ids rawFetch row t).lastMeetingDate = none) ∧
    (∀ v, (getLastMeetingDate ids rawFetch row t).lastMeetingDate = some v →
      v ∈ meetingDatesOf ids rawFetch ∧
      ∀ d ∈ meetingDatesOf ids rawFetch, d ≤ v) := by
  have hbody : getLastMeetingDate ids rawFetch row t =
      (if (sortIds ids).isEmpty then
        ⟨none, some (setMeetingCache none (some []) t), []⟩
      else
        match meetingDatesOf ids rawFetch with
        | [] => ⟨none, some (setMeetingCache none (some (sortIds ids)) t),
            sortIds ids⟩
        | d :: ds =>
          ⟨some (ds.foldl max d),
            some (setMeetingCache (some (ds.foldl max d))
              (some (sortIds ids)) t), sortIds ids⟩) := by
    unfold getLastMeetingDate
    cases row with
    | none =>
      simp only [getMeetingCache, meetingDatesOf,
        processBatch_fst (sortIds ids) (attemptFetchMeeting rawFetch) 5 500
          (by norm_num)]
    | some r =>
      have hne : ¬ (sortIds ids = sortIds (r.meetingIds.getD [])) :=
        fun h => hmiss r rfl h.symm
      rw [getMeetingCache_top]
      simp only [hne, if_false, meetingDatesOf,
        processBatch_fst (sortIds ids) (attemptFetchMeeting rawFetch) 5 500
          (by norm_num)]
  by_cases hemp : (sortIds ids).isEmpty
  · have hids : sortIds ids = [] := List.isEmpty_iff.mp hemp
    have hdates : meetingDatesOf ids rawFetch = [] := by
      simp [meetingDatesOf, hids]
    rw [hbody]
    simp only [hemp, if_true]
    refine ⟨hids.symm, ⟨_, rfl, by simp [setMeetingCache, hids], rfl⟩, ?_, ?_⟩
    · simp [hdates]
    · intro v hv
      exact absurd hv (by simp)
  · rw [hbody]
    simp only [hemp, Bool.false_eq_true, if_false]
    cases hm : meetingDatesOf ids rawFetch with
    | nil =>
      refine ⟨rfl, ⟨_, rfl, rfl, rfl⟩, ⟨fun _ => rfl, fun _ => rfl⟩, ?_⟩
      intro v hv
      exact Option.noConfusion hv
    | cons d ds =>
      refine ⟨rfl, ⟨_, rfl, rfl, rfl⟩, ?_, ?_⟩
      · constructor
        · intro h
          exact absurd h (by simp)
        · intro h
          exact Option.noConfusion h
      · intro v hv
        have hv' : v = ds.foldl max d := by
          have hsome : some (ds.foldl max d) = some v := hv
          exact (Option.some.inj hsome).symm
        subst hv'
        constructor
        · rcases foldl_max_mem d ds with h | h
          · rw [h]
            exact List.mem_cons_self d ds
          · exact List.mem_cons_of_mem d h
        · intro x hx
          rcases List.mem_cons.mp hx with rfl | hx
          · exact (le_foldl_max x ds).1
          · exact (le_foldl_max d ds).2 x hx

/-- C6 witness: with no cache row, a two-id call fetches both ids (in sorted
order). -/
theorem meetingIdentity_invalidation_witness :
    (∀ r : MeetingRow, (none : Option MeetingRow) = some r →
      sortIds (r.meetingIds.getD []) ≠ sortIds ["m2", "m1"]) ∧
    (getLastMeetingDate ["m2", "m1"] (fun _ => Except.ok ⟨some 5, none⟩)
      none 100).fetchedIds = sortIds ["m2", "m1"] :=
  ⟨fun r h => Option.noConfusion h,
    (meetingIdentity_invalidation ["m2", "m1"]
      (fun _ => Except.ok ⟨some 5, none⟩) none 100
      (fun r h => Option.noConfusion h)).1⟩

/-! ### C5 — the suggestion gate. -/

/-- C5: with a usable company or contact id, `generateNextStepForDeal`
regenerates (produces and saves a fresh record) unconditionally under
`forceRefresh`, and when no `deal_next_steps` record exists; when a record
with a nonzero stored generation-time timestamp exists and the current
latest engagement timestamp is nonzero, it regenerates exactly when the
current timestamp is strictly newer, and otherwise returns the stored text
with no engagement fetch, no generator call and no write. -/
theorem suggestionGate_spec (deal : NSDeal) (contactId : Option String)
    (existingNextStep : Option NextStepRow)
    (latestEngagementTimestamp : Option Nat)
    (companyRaw contactRaw : List RawEngagement)
    (ai : List Engagement → String)
    (hid : optStrTruthy deal.companyId = true ∨ optStrTruthy contactId = true) :
    ((generateNextStepForDeal deal contactId true existingNextStep
        latestEngagementTimestamp companyRaw contactRaw ai).savedRow ≠ none) ∧
    (existingNextStep = none →
      (generateNextStepForDeal deal contactId false none
        latestEngagementTimestamp companyRaw contactRaw ai).savedRow ≠ none) ∧
    (∀ (r : NextStepRow) (c l : Nat), r.last_engagement_timestamp = some c →
      0 < c → latestEngagementTimestamp = some l → 0 < l →
      ((l ≤ c →
        generateNextStepForDeal deal contactId false (some r)
          latestEngagementTimestamp companyRaw contactRaw ai =
          ⟨r.next_step, none, false, []⟩) ∧
       (c < l →
        (generateNextStepForDeal deal contactId false (some r)
          latestEngagementTimestamp companyRaw contactRaw ai).savedRow ≠
          none))) := by
  have hguard : (! (optStrTruthy deal.companyId || optStrTruthy contactId)) = false := by
    rcases hid with h | h <;> simp [h]
  refine ⟨?_, ?_, ?_⟩
  · simp only [generateNextStepForDeal, hguard, Bool.false_eq_true, if_false,
      if_true]
    split <;> simp
  · intro hnone
    simp only [generateNextStepForDeal, hguard, Bool.false_eq_true, if_false]
    split <;> simp
  · intro r c l hc hcpos hl hlpos
    constructor
    · intro hle
      have hcond : (optNatTruthy r.last_engagement_timestamp &&
          optNatTruthy latestEngagementTimestamp &&
          decide (latestEngagementTimestamp.getD 0 ≤
            r.last_engagement_timestamp.getD 0)) = true := by
        rw [hc, hl]
        simp only [optNatTruthy, Option.getD_some]
        simp [Nat.pos_iff_ne_zero.mp hcpos, Nat.pos_iff_ne_zero.mp hlpos, hle]
      simp only [generateNextStepForDeal, hguard, Bool.false_eq_true, if_false,
        hcond, if_true]
    · intro hlt
      have hcond : (optNatTruthy r.last_engagement_timestamp &&
          optNatTruthy latestEngagementTimestamp &&
          decide (latestEngagementTimestamp.getD 0 ≤
            r.last_engagement_timestamp.getD 0)) = false := by
        rw [hc, hl]
        simp only [optNatTruthy, Option.getD_some]
        simp [Nat.not_le.mpr hlt]
      simp only [generateNextStepForDeal, hguard, Bool.false_eq_true, if_false,
        hcond]
      split <;> simp

/-- C5 witness: a stored record at timestamp 10 with current latest 10 is
served from the cache; forcing a refresh regenerates. -/
theorem suggestionGate_spec_witness :
    (optStrTruthy (some "co1") = true ∨ optStrTruthy (none : Option String) = true) ∧
    generateNextStepForDeal ⟨"d1", some "co1", "Deal", none, none⟩ none false
      (some ⟨"stay the course", some 10⟩) (some 10) [] []
      (fun _ => "fresh") = ⟨"stay the course", none, false, []⟩ :=
  ⟨Or.inl rfl,
    ((suggestionGate_spec ⟨"d1", some "co1", "Deal", none, none⟩ none
      (some ⟨"stay the course", some 10⟩) (some 10) [] []
      (fun _ => "fresh") (Or.inl rfl)).2.2 ⟨"stay the course", some 10⟩ 10 10
      rfl (by decide) rfl (by decide)).1 (by decide)⟩

/-! ### C10 — the stored generation-time timestamp. -/

instance : IsTotal Engagement newestFirst :=
  ⟨fun a b => Nat.le_total b.timestamp a.timestamp⟩

instance : IsTrans Engagement newestFirst :=
  ⟨fun _ _ _ h1 h2 => Nat.le_trans h2 h1⟩

/-- C10: when `generateNextStepForDeal` regenerates, the timestamp saved with
the record is `engagements[0].timestamp` of the list used for generation;
that list is up to 3 notes before up to 3 emails, each group newest-first, so
on a history whose newest engagement is an email while a note exists the
stored timestamp is strictly below the parent's maximum engagement
timestamp (see the embedded concrete history). -/
theorem storedEngagementTimestamp_spec (deal : NSDeal)
    (contactId : Option String) (forceRefresh : Bool)
    (existingNextStep : Option NextStepRow)
    (latestEngagementTimestamp : Option Nat)
    (companyRaw contactRaw : List RawEngagement)
    (ai : List Engagement → String) (e : Engagement) (es : List Engagement)
    (hcompany : optStrTruthy deal.companyId = true)
    (hengs : fetchCompanyEngagements companyRaw = e :: es) :
    (∀ row, (generateNextStepForDeal deal contactId forceRefresh
        existingNextStep latestEngagementTimestamp companyRaw contactRaw
        ai).savedRow = some row →
      row.last_engagement_timestamp = some e.timestamp) ∧
    (∀ rawList : List RawEngagement, ∃ notes emails,
      fetchCompanyEngagements rawList = notes ++ emails ∧
      notes.length ≤ 3 ∧ emails.length ≤ 3 ∧
      (∀ x ∈ notes, x.type = "NOTE") ∧
      (∀ x ∈ emails, typeIncludesEmail x.type = true) ∧
      List.Pairwise newestFirst notes ∧ List.Pairwise newestFirst emails) ∧
    ((generateNextStepForDeal ⟨"d1", some "co1", "Deal", none, none⟩ none true
        none none
        [⟨"e1", "EMAIL", some 100, none⟩, ⟨"n1", "NOTE", some 50, none⟩]
        [] (fun _ => "next")).savedRow = some ⟨"next", some 50⟩ ∧
      getLastEngagementTimestamp
        ((generateNextStepForDeal ⟨"d1", some "co1", "Deal", none, none⟩ none
          true none none
          [⟨"e1", "EMAIL", some 100, none⟩, ⟨"n1", "NOTE", some 50, none⟩]
          [] (fun _ => "next")).savedEngagements) = some 100 ∧
      (50 : Nat) < 100) := by
  have hguard : (! (optStrTruthy deal.companyId || optStrTruthy contactId)) = false := by
    simp [hcompany]
  refine ⟨?_, ?_, ?_⟩
  · intro row hrow
    simp only [generateNextStepForDeal, hguard, Bool.false_eq_true, if_false] at hrow
    rcases hsplit : (if forceRefresh then none
      else
        match existingNextStep with
        | none => none
        | some r =>
          if optNatTruthy r.last_engagement_timestamp &&
              optNatTruthy latestEngagementTimestamp &&
              decide (latestEngagementTimestamp.getD 0 ≤
                r.last_engagement_timestamp.getD 0) then
            some r.next_step
          else none) with ht | ht
    all_goals rw [hsplit] at hrow
    · simp only [hcompany, if_true, hengs, List.isEmpty_cons,
        Bool.false_and, Bool.false_eq_true, if_false] at hrow
      have := Option.some.inj hrow
      rw [← this]
    · exact absurd hrow (by simp)
  · intro rawList
    refine ⟨_, _, rfl, List.length_take_le 3 _, List.length_take_le 3 _,
      ?_, ?_, ?_, ?_⟩
    · intro x hx
      have hx' := List.take_subset 3 _ hx
      have := (List.mem_filter.mp hx').2
      simpa using this
    · intro x hx
      have hx' := List.take_subset 3 _ hx
      exact (List.mem_filter.mp hx').2
    · exact List.Pairwise.sublist
        ((List.take_sublist 3 _).trans (List.filter_sublist _))
        (List.sorted_insertionSort newestFirst _)
    · exact List.Pairwise.sublist
        ((List.take_sublist 3 _).trans (List.filter_sublist _))
        (List.sorted_insertionSort newestFirst _)
  · refine ⟨by decide, by decide, by decide⟩

/-- C10 witness: on the email-newest history the engagement list starts with
the note, and the stored timestamp (50) is below the parent maximum (100). -/
theorem storedEngagementTimestamp_witness :
    optStrTruthy (some "co1") = true ∧
    fetchCompanyEngagements
      [⟨"e1", "EMAIL", some 100, none⟩, ⟨"n1", "NOTE", some 50, none⟩] =
      ⟨"n1", "NOTE", 50, none⟩ :: [⟨"e1", "EMAIL", 100, some "outbound"⟩] ∧
    (50 : Nat) < 100 :=
  ⟨rfl, by decide,
    (storedEngagementTimestamp_spec ⟨"d1", some "co1", "Deal", none, none⟩
      none true none none
      [⟨"e1", "EMAIL", some 100, none⟩, ⟨"n1", "NOTE", some 50, none⟩] []
      (fun _ => "next") ⟨"n1", "NOTE", 50, none⟩
      [⟨"e1", "EMAIL", 100, some "outbound"⟩] rfl (by decide)).2.2.2.2⟩

/-! ### C1/C7 — JS-Map bridge lemmas for the reconciler. -/

theorem jsMapGet_map_eq_find {α β : Type} (key : α → String) (val : α → β)
    (l : List α) (hnd : (l.map key).Nodup) (k : String) :
    jsMapGet (l.map (fun d => (key d, val d))) k =
      (l.find? (fun d => key d == k)).map val := by
  induction l with
  | nil => rfl
  | cons d rest ih =>
    rw [List.map_cons] at hnd
    rcases List.nodup_cons.mp hnd with ⟨hdk, hnd'⟩
    simp only [List.map_cons, jsMapGet, List.reverse_cons, List.find?_append,
      List.find?_cons]
    by_cases hk : key d == k
    · have hkeq : key d = k := by simpa using hk
      have hnone : ((rest.map (fun d => (key d, val d))).reverse.find?
          (fun p => p.1 == k)) = none := by
        apply List.find?_eq_none.mpr
        intro p hp
        rw [List.mem_reverse] at hp
        rcases List.mem_map.mp hp with ⟨d', hd', rfl⟩
        simp only [beq_iff_eq]
        intro hcontra
        exact hdk (hkeq ▸ hcontra ▸ List.mem_map.mpr ⟨d', hd', rfl⟩)
      rw [hnone, hk]
      simp [List.find?_cons, hk]
    · rw [Bool.not_eq_true] at hk
      simp only [hk, List.find?_nil, Option.or_none]
      exact ih hnd'

theorem jsMapGet_map_some {α β : Type} (key : α → String) (val : α → β)
    (l : List α) (k : String) (v : β)
    (h : jsMapGet (l.map (fun d => (key d, val d))) k = some v) :
    ∃ d ∈ l, key d = k ∧ v = val d := by
  simp only [jsMapGet, Option.map_eq_some'] at h
  rcases h with ⟨p, hp, hval⟩
  have hmem := List.mem_of_find?_eq_some hp
  rw [List.mem_reverse] at hmem
  rcases List.mem_map.mp hmem with ⟨d, hd, rfl⟩
  have hkey : key d = k := by simpa using List.find?_some hp
  exact ⟨d, hd, hkey, hval.symm⟩

theorem jsMapGet_of_mem {β : Type} (pairs : List (String × β))
    (hnd : (pairs.map Prod.fst).Nodup) (k : String) (v : β)
    (hmem : (k, v) ∈ pairs) : jsMapGet pairs k = some v := by
  have hexists : ∃ p ∈ pairs.reverse, (p.1 == k) = true := by
    refine ⟨(k, v), List.mem_reverse.mpr hmem, by simp⟩
  rcases Option.isSome_iff_exists.mp (List.find?_isSome.mpr hexists) with ⟨q, hq⟩
  have hqk : q.1 = k := by simpa using List.find?_some hq
  have hqmem : q ∈ pairs := List.mem_reverse.mp (List.mem_of_find?_eq_some hq)
  have hqeq : q = (k, v) :=
    List.inj_on_of_nodup_map hnd hqmem hmem (by simpa using hqk)
  rw [jsMapGet, hq, hqeq]
  rfl

theorem jsMapHas_iff {β : Type} (pairs : List (String × β)) (k : String) :
    jsMapHas pairs k = true ↔ ∃ p ∈ pairs, p.1 = k := by
  simp [jsMapHas, List.any_eq_true]

theorem filterMap_map_key_sublist {β : Type} (key : β → String)
    (f : String → Option β) (l : List String)
    (hkey : ∀ a ∈ l, ∀ b, f a = some b → key b = a) :
    List.Sublist ((l.filterMap f).map key) l := by
  induction l with
  | nil => simp
  | cons a rest ih =>
    have ih' := ih (fun a' ha' b hb => hkey a' (List.mem_cons_of_mem a ha') b hb)
    cases hfa : f a with
    | none =>
      rw [List.filterMap_cons, hfa]
      exact ih'.cons a
    | some b =>
      rw [List.filterMap_cons, hfa, List.map_cons,
        hkey a (List.mem_cons_self a rest) b hfa]
      exact ih'.cons₂ a

/-- The spec-side partition of the fresh listing: an entry is changed when no
cached deal carries its id, or the cached deal's marker differs. -/
def changedIdsSpec (listing : List ListingDeal) (cached : List Deal) :
    List String :=
  (listing.filter (fun it =>
    match cached.find? (fun d => d.id == it.id) with
    | none => true
    | some d => decide (d.lastModifiedDate ≠ it.hs_lastmodifieddate))).map (·.id)

theorem changedDealIdsOf_eq_spec (listing : List ListingDeal)
    (cached : List Deal) (hNC : (cached.map (·.id)).Nodup)
    (hM : ∀ d ∈ cached, ∃ m, d.lastModifiedDate = some m ∧ m ≠ "") :
    changedDealIdsOf listing cached = changedIdsSpec listing cached := by
  unfold changedDealIdsOf changedIdsSpec
  congr 1
  apply List.filter_congr
  intro it _
  rw [cachedDealsMapOf, jsMapGet_map_eq_find (fun d => d.id)
    (fun d => d.lastModifiedDate) cached hNC it.id]
  cases hfind : cached.find? (fun d => d.id == it.id) with
  | none => simp [optStrFalsy]
  | some d0 =>
    rcases hM d0 (List.mem_of_find?_eq_some hfind) with ⟨m, hm, hmne⟩
    simp only [Option.map_some', Option.join, Option.some_bind, id_eq]
    rw [hm]
    simp [optStrFalsy, hmne, ne_comm]

theorem updatedDealsOf_eq_map (listing : List ListingDeal) (cached : List Deal)
    (rawFetch : String → Except String Deal) :
    updatedDealsOf listing cached rawFetch =
      (changedDealIdsOf listing cached).map (attemptFetchDeal rawFetch) :=
  processBatch_fst _ _ _ _ (by norm_num [BATCH_SIZE])

theorem mem_updated_filterMap (listing : List ListingDeal) (cached : List Deal)
    (rawFetch : String → Except String Deal)
    (hFid : ∀ cid dd, rawFetch cid = Except.ok dd → dd.id = cid) :
    ∀ u ∈ (updatedDealsOf listing cached rawFetch).filterMap id,
      rawFetch u.id = Except.ok u ∧ u.id ∈ changedDealIdsOf listing cached := by
  intro u hu
  rw [updatedDealsOf_eq_map, List.filterMap_map] at hu
  rcases List.mem_filterMap.mp hu with ⟨cid, hcid, hatt⟩
  have hatt' : attemptFetchDeal rawFetch cid = some u := hatt
  unfold attemptFetchDeal at hatt'
  cases hraw : rawFetch cid with
  | ok dd =>
    rw [hraw] at hatt'
    have hud : dd = u := Option.some.inj hatt'
    subst hud
    have hid := hFid cid dd hraw
    rw [hid]
    exact ⟨hraw, hcid⟩
  | error msg =>
    rw [hraw] at hatt'
    exact Option.noConfusion hatt'

theorem changedDealIdsOf_nodup (listing : List ListingDeal)
    (cached : List Deal) (hNL : (listing.map (·.id)).Nodup) :
    (changedDealIdsOf listing cached).Nodup := by
  unfold changedDealIdsOf
  exact hNL.sublist (List.Sublist.map _ (List.filter_sublist listing))

theorem updatedDealsMapOf_keys_nodup (listing : List ListingDeal)
    (cached : List Deal) (rawFetch : String → Except String Deal)
    (hNL : (listing.map (·.id)).Nodup)
    (hFid : ∀ cid dd, rawFetch cid = Except.ok dd → dd.id = cid) :
    ((updatedDealsMapOf listing cached rawFetch).map Prod.fst).Nodup := by
  unfold updatedDealsMapOf
  rw [List.map_map]
  have hre : (Prod.fst ∘ fun d : Deal => (d.id, d)) = fun d : Deal => d.id := rfl
  rw [hre]
  rw [updatedDealsOf_eq_map, List.filterMap_map]
  refine (changedDealIdsOf_nodup listing cached hNL).sublist ?_
  apply filterMap_map_key_sublist (fun d : Deal => d.id)
  intro cid _ dd hdd
  simp only [Function.comp_apply, id_eq, attemptFetchDeal] at hdd
  cases hraw : rawFetch cid with
  | ok d' =>
    rw [hraw] at hdd
    exact (Option.some.inj hdd) ▸ hFid cid d' hraw
  | error msg =>
    rw [hraw] at hdd
    exact Option.noConfusion hdd

theorem jsMapGet_updated_none (listing : List ListingDeal) (cached : List Deal)
    (rawFetch : String → Except String Deal) (k : String)
    (hFid : ∀ cid dd, rawFetch cid = Except.ok dd → dd.id = cid)
    (hk : k ∉ changedDealIdsOf listing cached) :
    jsMapGet (updatedDealsMapOf listing cached rawFetch) k = none := by
  cases hget : jsMapGet (updatedDealsMapOf listing cached rawFetch) k with
  | none => rfl
  | some u =>
    exfalso
    unfold updatedDealsMapOf at hget
    rcases jsMapGet_map_some (fun x : Deal => x.id) (fun x : Deal => x)
      ((updatedDealsOf listing cached rawFetch).filterMap id) k u hget with
      ⟨w, hw, hwk, hwu⟩
    rcases mem_updated_filterMap listing cached rawFetch hFid w hw with ⟨_, hmem⟩
    exact hk (hwk ▸ hmem)

theorem jsMapGet_updated_some (listing : List ListingDeal) (cached : List Deal)
    (rawFetch : String → Except String Deal) (k : String) (u : Deal)
    (hNL : (listing.map (·.id)).Nodup)
    (hFid : ∀ cid dd, rawFetch cid = Except.ok dd → dd.id = cid)
    (hk : k ∈ changedDealIdsOf listing cached)
    (hraw : rawFetch k = Except.ok u) :
    jsMapGet (updatedDealsMapOf listing cached rawFetch) k = some u := by
  have huid : u.id = k := hFid k u hraw
  have hatt : attemptFetchDeal rawFetch k = some u := by
    unfold attemptFetchDeal
    rw [hraw]
  have humem : u ∈ (updatedDealsOf listing cached rawFetch).filterMap id := by
    rw [updatedDealsOf_eq_map, List.filterMap_map]
    exact List.mem_filterMap.mpr ⟨k, hk, hatt⟩
  have hpair : (k, u) ∈ updatedDealsMapOf listing cached rawFetch := by
    unfold updatedDealsMapOf
    exact huid ▸ List.mem_map.mpr ⟨u, humem, rfl⟩
  exact jsMapGet_of_mem _ (updatedDealsMapOf_keys_nodup listing cached rawFetch
    hNL hFid) k u hpair

theorem str_contains_iff (l : List String) (k : String) :
    l.contains k = true ↔ k ∈ l :=
  List.elem_iff

theorem mem_deletedDealIdsOf (listing : List ListingDeal) (cached : List Deal)
    (k : String) :
    k ∈ deletedDealIdsOf listing cached ↔
      ∃ c ∈ cached, c.id = k ∧ k ∉ listing.map (·.id) := by
  unfold deletedDealIdsOf
  constructor
  · intro hk
    rcases List.mem_map.mp hk with ⟨c, hc, rfl⟩
    rcases List.mem_filter.mp hc with ⟨hc', hnc⟩
    refine ⟨c, hc', rfl, ?_⟩
    intro hmem
    rw [Bool.not_eq_eq_eq_not, Bool.not_true] at hnc
    rw [← str_contains_iff] at hmem
    rw [hnc] at hmem
    exact Bool.noConfusion hmem
  · intro ⟨c, hc, hck, hnot⟩
    apply List.mem_map.mpr
    refine ⟨c, List.mem_filter.mpr ⟨hc, ?_⟩, hck⟩
    rw [Bool.not_eq_eq_eq_not, Bool.not_true]
    rw [← str_contains_iff] at hnot
    exact Bool.not_eq_true _ ▸ (Bool.eq_false_iff.mpr (hck ▸ hnot))

theorem mergedDealsOf_id (listing : List ListingDeal) (cached : List Deal)
    (rawFetch : String → Except String Deal) :
    ∀ d' ∈ mergedDealsOf listing cached rawFetch, ∃ c ∈ cached,
      (deletedDealIdsOf listing cached).contains c.id = false ∧
      d'.id = c.id ∧
      d' = (jsMapGet (updatedDealsMapOf listing cached rawFetch) c.id).getD c := by
  intro d' hd'
  unfold mergedDealsOf at hd'
  rcases List.mem_map.mp hd' with ⟨c, hc, rfl⟩
  rcases List.mem_filter.mp hc with ⟨hc', hnc⟩
  rw [Bool.not_eq_eq_eq_not, Bool.not_true] at hnc
  refine ⟨c, hc', hnc, ?_, rfl⟩
  cases hget : jsMapGet (updatedDealsMapOf listing cached rawFetch) c.id with
  | none => simp [hget]
  | some u =>
    rcases jsMapGet_map_some (fun x : Deal => x.id) (fun x : Deal => x)
      ((updatedDealsOf listing cached rawFetch).filterMap id) c.id u hget with
      ⟨w, _, hwk, hwu⟩
    simp [hget, hwu, hwk]

theorem newDealsOf_mem (listing : List ListingDeal) (cached : List Deal)
    (rawFetch : String → Except String Deal) :
    ∀ u ∈ newDealsOf listing cached rawFetch,
      u ∈ (updatedDealsOf listing cached rawFetch).filterMap id ∧
      jsMapHas (cachedDealsMapOf cached) u.id = false := by
  intro u hu
  unfold newDealsOf at hu
  rcases List.mem_filterMap.mp hu with ⟨od, hod, hbind⟩
  cases od with
  | none => exact Option.noConfusion hbind
  | some w =>
    rw [Option.some_bind] at hbind
    by_cases hhas : jsMapHas (cachedDealsMapOf cached) w.id
    · rw [if_pos hhas] at hbind
      exact Option.noConfusion hbind
    · rw [if_neg hhas] at hbind
      have hwu : w = u := Option.some.inj hbind
      subst hwu
      exact ⟨List.mem_filterMap.mpr ⟨some w, hod, rfl⟩,
        Bool.eq_false_iff.mpr hhas⟩

theorem mem_changedDealIdsOf (listing : List ListingDeal) (cached : List Deal)
    (k : String) :
    k ∈ changedDealIdsOf listing cached ↔
      ∃ it ∈ listing, it.id = k ∧
        (optStrFalsy ((jsMapGet (cachedDealsMapOf cached) it.id).join) ||
          decide (it.hs_lastmodifieddate ≠
            (jsMapGet (cachedDealsMapOf cached) it.id).join)) = true := by
  unfold changedDealIdsOf
  constructor
  · intro hk
    rcases List.mem_map.mp hk with ⟨it, hit, rfl⟩
    rcases List.mem_filter.mp hit with ⟨hit', hp⟩
    exact ⟨it, hit', rfl, hp⟩
  · intro ⟨it, hit, hid, hp⟩
    exact List.mem_map.mpr ⟨it, List.mem_filter.mpr ⟨hit, hp⟩, hid⟩

theorem codePred_unchanged (cached : List Deal) (it : ListingDeal) (d : Deal)
    (hNC : (cached.map (·.id)).Nodup) (hd : d ∈ cached) (hid : it.id = d.id)
    (hm : ∀ d ∈ cached, ∃ m, d.lastModifiedDate = some m ∧ m ≠ "")
    (hmarker : it.hs_lastmodifieddate = d.lastModifiedDate) :
    (optStrFalsy ((jsMapGet (cachedDealsMapOf cached) it.id).join) ||
      decide (it.hs_lastmodifieddate ≠
        (jsMapGet (cachedDealsMapOf cached) it.id).join)) = false := by
  have hfind : cached.find? (fun x => x.id == it.id) = some d := by
    have hsome : ∃ x ∈ cached, (x.id == it.id) = true :=
      ⟨d, hd, by simp [hid]⟩
    rcases Option.isSome_iff_exists.mp (List.find?_isSome.mpr hsome) with ⟨d0, hd0⟩
    have hd0id : d0.id = it.id := by simpa using List.find?_some hd0
    have hd0mem := List.mem_of_find?_eq_some hd0
    have : d0 = d :=
      List.inj_on_of_nodup_map hNC hd0mem hd (by rw [hd0id, hid])
    rw [hd0, this]
  rw [cachedDealsMapOf, jsMapGet_map_eq_find (fun x => x.id)
    (fun x => x.lastModifiedDate) cached hNC it.id, hfind]
  rcases hm d hd with ⟨m, hmval, hmne⟩
  simp only [Option.map_some', Option.join, Option.some_bind, id_eq]
  rw [hmarker, hmval]
  simp [optStrFalsy, hmne]

theorem codePred_changed (cached : List Deal) (it : ListingDeal)
    (hNC : (cached.map (·.id)).Nodup)
    (hm : ∀ d ∈ cached, ∃ m, d.lastModifiedDate = some m ∧ m ≠ "")
    (hch : ∀ d ∈ cached, d.id = it.id →
      d.lastModifiedDate ≠ it.hs_lastmodifieddate) :
    (optStrFalsy ((jsMapGet (cachedDealsMapOf cached) it.id).join) ||
      decide (it.hs_lastmodifieddate ≠
        (jsMapGet (cachedDealsMapOf cached) it.id).join)) = true := by
  rw [cachedDealsMapOf, jsMapGet_map_eq_find (fun x => x.id)
    (fun x => x.lastModifiedDate) cached hNC it.id]
  cases hfind : cached.find? (fun x => x.id == it.id) with
  | none => simp [optStrFalsy]
  | some d0 =>
    have hd0mem := List.mem_of_find?_eq_some hfind
    have hd0id : d0.id = it.id := by simpa using List.find?_some hfind
    rcases hm d0 hd0mem with ⟨m, hmval, hmne⟩
    have hne := hch d0 hd0mem hd0id
    simp only [Option.map_some', Option.join, Option.some_bind, id_eq]
    rw [hmval]
    rw [hmval] at hne
    simp only [optStrFalsy, Bool.or_eq_true, decide_eq_true_eq]
    exact Or.inr (fun h => hne h.symm)

/-- C1: for a cached snapshot whose entries all carry modification markers
and a fresh listing (ids duplicate-free on both sides, the detail fetcher
returning the requested id), the reconciler detail-fetches exactly the
listing ids whose marker differs from the cached one or which are absent
from the cache; the merged collection excludes every cached id absent from
the listing, keeps every unchanged cached entry as-is, and contains the
newly fetched record for every changed or new id. -/
theorem reconciler_diff_spec (listing : List ListingDeal) (cached : List Deal)
    (t : Nat) (rawFetch : String → Except String Deal)
    (bulk : List BulkDeal) (sub : BulkDeal → SubEntityData)
    (hNC : (cached.map (·.id)).Nodup)
    (hNL : (listing.map (·.id)).Nodup)
    (hM : ∀ d ∈ cached, ∃ m, d.lastModifiedDate = some m ∧ m ≠ "")
    (hFid : ∀ cid dd, rawFetch cid = Except.ok dd → dd.id = cid)
    (hFok : ∀ cid, ∃ dd, rawFetch cid = Except.ok dd) :
    (fetchChangedDeals listing (some ⟨cached, t⟩) rawFetch bulk
      sub).fetchedDetailIds = changedIdsSpec listing cached ∧
    (∀ d ∈ cached, d.id ∉ listing.map (·.id) →
      ∀ d' ∈ (fetchChangedDeals listing (some ⟨cached, t⟩) rawFetch bulk
        sub).merged, d'.id ≠ d.id) ∧
    (∀ d ∈ cached, ∀ it ∈ listing, it.id = d.id →
      it.hs_lastmodifieddate = d.lastModifiedDate →
      d ∈ (fetchChangedDeals listing (some ⟨cached, t⟩) rawFetch bulk
        sub).merged) ∧
    (∀ it ∈ listing,
      (∀ d ∈ cached, d.id = it.id →
        d.lastModifiedDate ≠ it.hs_lastmodifieddate) →
      ∃ u, rawFetch it.id = Except.ok u ∧
        u ∈ (fetchChangedDeals listing (some ⟨cached, t⟩) rawFetch bulk
          sub).merged) := by
  have hout : fetchChangedDeals listing (some ⟨cached, t⟩) rawFetch bulk sub =
      (if (changedDealIdsOf listing cached).isEmpty &&
          (deletedDealIdsOf listing cached).isEmpty then
        (⟨cached, []⟩ : DiffOutcome)
      else
        ⟨mergedDealsOf listing cached rawFetch ++
            newDealsOf listing cached rawFetch,
          changedDealIdsOf listing cached⟩) := rfl
  have hspec := changedDealIdsOf_eq_spec listing cached hNC hM
  refine ⟨?_, ?_, ?_, ?_⟩
  · rw [hout]
    by_cases hb : ((changedDealIdsOf listing cached).isEmpty &&
        (deletedDealIdsOf listing cached).isEmpty) = true
    · rw [if_pos hb]
      have hce : (changedDealIdsOf listing cached).isEmpty = true := by
        simp only [Bool.and_eq_true] at hb
        exact hb.1
      rw [← hspec]
      exact (List.isEmpty_iff.mp hce).symm
    · rw [if_neg hb]
      exact hspec
  · intro d hd hdnot d' hd'
    have hdel : d.id ∈ deletedDealIdsOf listing cached :=
      (mem_deletedDealIdsOf listing cached d.id).mpr ⟨d, hd, rfl, hdnot⟩
    have hb : ((changedDealIdsOf listing cached).isEmpty &&
        (deletedDealIdsOf listing cached).isEmpty) = false := by
      have hde : (deletedDealIdsOf listing cached).isEmpty = false := by
        cases hdl : deletedDealIdsOf listing cached with
        | nil => rw [hdl] at hdel; exact absurd hdel (List.not_mem_nil _)
        | cons a l => rfl
      rw [hde, Bool.and_false]
    rw [hout, if_neg (by rw [hb]; exact fun h => Bool.noConfusion h)] at hd'
    rcases List.mem_append.mp hd' with hd' | hd'
    · rcases mergedDealsOf_id listing cached rawFetch d' hd' with
        ⟨c, _, hcdel, hid, _⟩
      intro heq
      rw [heq] at hid
      have hcont : (deletedDealIdsOf listing cached).contains c.id = true :=
        (str_contains_iff _ _).mpr (hid ▸ hdel)
      rw [hcdel] at hcont
      exact Bool.noConfusion hcont
    · rcases newDealsOf_mem listing cached rawFetch d' hd' with ⟨hd'm, _⟩
      rcases mem_updated_filterMap listing cached rawFetch hFid d' hd'm with
        ⟨_, hch⟩
      rcases (mem_changedDealIdsOf listing cached d'.id).mp hch with
        ⟨it, hit, hitid, _⟩
      intro heq
      exact hdnot (heq ▸ hitid ▸ List.mem_map.mpr ⟨it, hit, rfl⟩)
  · intro d hd it hit hitid hmarker
    by_cases hb : ((changedDealIdsOf listing cached).isEmpty &&
        (deletedDealIdsOf listing cached).isEmpty) = true
    · rw [hout, if_pos hb]
      exact hd
    · rw [hout, if_neg hb]
      apply List.mem_append.mpr
      left
      have hnotdel : (deletedDealIdsOf listing cached).contains d.id = false := by
        rw [Bool.eq_false_iff]
        intro hcont
        rcases (mem_deletedDealIdsOf listing cached d.id).mp
          ((str_contains_iff _ _).mp hcont) with ⟨c, _, _, hnotin⟩
        exact hnotin (hitid ▸ List.mem_map.mpr ⟨it, hit, rfl⟩)
      have hnotch : d.id ∉ changedDealIdsOf listing cached := by
        intro hch
        rcases (mem_changedDealIdsOf listing cached d.id).mp hch with
          ⟨it', hit', hitid', hp⟩
        have : it' = it := List.inj_on_of_nodup_map hNL hit' hit
          (by rw [hitid', hitid])
        subst this
        rw [codePred_unchanged cached it' d hNC hd hitid hM hmarker] at hp
        exact Bool.noConfusion hp
      have hget := jsMapGet_updated_none listing cached rawFetch d.id hFid hnotch
      unfold mergedDealsOf
      apply List.mem_map.mpr
      refine ⟨d, List.mem_filter.mpr ⟨hd, ?_⟩, by rw [hget]; rfl⟩
      rw [hnotdel]
      rfl
  · intro it hit hch
    have hp := codePred_changed cached it hNC hM hch
    have hidch : it.id ∈ changedDealIdsOf listing cached :=
      (mem_changedDealIdsOf listing cached it.id).mpr ⟨it, hit, rfl, hp⟩
    have hb : ((changedDealIdsOf listing cached).isEmpty &&
        (deletedDealIdsOf listing cached).isEmpty) = false := by
      have hce : (changedDealIdsOf listing cached).isEmpty = false := by
        cases hcl : changedDealIdsOf listing cached with
        | nil => rw [hcl] at hidch; exact absurd hidch (List.not_mem_nil _)
        | cons a l => rfl
      rw [hce, Bool.false_and]
    rcases hFok it.id with ⟨u, hraw⟩
    have huid : u.id = it.id := hFid it.id u hraw
    refine ⟨u, hraw, ?_⟩
    rw [hout, if_neg (by rw [hb]; exact fun h => Bool.noConfusion h)]
    apply List.mem_append.mpr
    by_cases hhas : jsMapHas (cachedDealsMapOf cached) it.id = true
    · left
      rcases (jsMapHas_iff _ _).mp hhas with ⟨p, hp', hpk⟩
      rcases List.mem_map.mp hp' with ⟨c, hc, rfl⟩
      have hcid : c.id = it.id := hpk
      have hnotdel : (deletedDealIdsOf listing cached).contains c.id = false := by
        rw [Bool.eq_false_iff]
        intro hcont
        rcases (mem_deletedDealIdsOf listing cached c.id).mp
          ((str_contains_iff _ _).mp hcont) with ⟨c', _, _, hnotin⟩
        exact hnotin (hcid ▸ List.mem_map.mpr ⟨it, hit, rfl⟩)
      have hget : jsMapGet (updatedDealsMapOf listing cached rawFetch) c.id =
          some u := by
        rw [hcid]
        exact jsMapGet_updated_some listing cached rawFetch it.id u hNL hFid
          hidch hraw
      unfold mergedDealsOf
      apply List.mem_map.mpr
      refine ⟨c, List.mem_filter.mpr ⟨hc, ?_⟩, by rw [hget]; rfl⟩
      rw [hnotdel]
      rfl
    · right
      unfold newDealsOf
      apply List.mem_filterMap.mpr
      refine ⟨some u, ?_, ?_⟩
      · rw [updatedDealsOf_eq_map]
        apply List.mem_map.mpr
        refine ⟨it.id, hidch, ?_⟩
        unfold attemptFetchDeal
        rw [hraw]
      · rw [Option.some_bind, huid]
        rw [if_neg (by rw [Bool.not_eq_true] at hhas; simp [hhas])]

/-- C1 witness: cached `{A: mX, B: mY}` against listing `{A: mX, C: mZ}` —
only `C` is fetched, `B` is dropped, `A` is kept, `C`'s fresh record is
merged in. -/
theorem reconciler_diff_witness :
    (fetchChangedDeals [⟨"A", some "mX"⟩, ⟨"C", some "mZ"⟩]
        (some ⟨[⟨"A", "a", none, "s", "cn", none, none, "pc", none, some "mX", none⟩,
                ⟨"B", "b", none, "s", "cn", none, none, "pc", none, some "mY", none⟩], 0⟩)
        (fun cid => Except.ok ⟨cid, "fresh", none, "s", "cn", none, none, "pc",
          none, some "mZ", none⟩) [] (fun _ => ⟨"cn", none, none, "pc", none,
          none, none⟩)).fetchedDetailIds =
      changedIdsSpec [⟨"A", some "mX"⟩, ⟨"C", some "mZ"⟩]
        [⟨"A", "a", none, "s", "cn", none, none, "pc", none, some "mX", none⟩,
         ⟨"B", "b", none, "s", "cn", none, none, "pc", none, some "mY", none⟩] ∧
    (∀ d' ∈ (fetchChangedDeals [⟨"A", some "mX"⟩, ⟨"C", some "mZ"⟩]
        (some ⟨[⟨"A", "a", none, "s", "cn", none, none, "pc", none, some "mX", none⟩,
                ⟨"B", "b", none, "s", "cn", none, none, "pc", none, some "mY", none⟩], 0⟩)
        (fun cid => Except.ok ⟨cid, "fresh", none, "s", "cn", none, none, "pc",
          none, some "mZ", none⟩) [] (fun _ => ⟨"cn", none, none, "pc", none,
          none, none⟩)).merged,
      d'.id ≠ "B") ∧
    (⟨"A", "a", none, "s", "cn", none, none, "pc", none, some "mX", none⟩ : Deal) ∈
      (fetchChangedDeals [⟨"A", some "mX"⟩, ⟨"C", some "mZ"⟩]
        (some ⟨[⟨"A", "a", none, "s", "cn", none, none, "pc", none, some "mX", none⟩,
                ⟨"B", "b", none, "s", "cn", none, none, "pc", none, some "mY", none⟩], 0⟩)
        (fun cid => Except.ok ⟨cid, "fresh", none, "s", "cn", none, none, "pc",
          none, some "mZ", none⟩) [] (fun _ => ⟨"cn", none, none, "pc", none,
          none, none⟩)).merged ∧
    (∃ u, (fun cid => Except.ok (⟨cid, "fresh", none, "s", "cn", none, none, "pc",
          none, some "mZ", none⟩ : Deal) : String → Except String Deal) "C" =
        Except.ok u ∧
      u ∈ (fetchChangedDeals [⟨"A", some "mX"⟩, ⟨"C", some "mZ"⟩]
        (some ⟨[⟨"A", "a", none, "s", "cn", none, none, "pc", none, some "mX", none⟩,
                ⟨"B", "b", none, "s", "cn", none, none, "pc", none, some "mY", none⟩], 0⟩)
        (fun cid => Except.ok ⟨cid, "fresh", none, "s", "cn", none, none, "pc",
          none, some "mZ", none⟩) [] (fun _ => ⟨"cn", none, none, "pc", none,
          none, none⟩)).merged) := by
  have hM : ∀ d ∈ [(⟨"A", "a", none, "s", "cn", none, none, "pc", none,
      some "mX", none⟩ : Deal),
      ⟨"B", "b", none, "s", "cn", none, none, "pc", none, some "mY", none⟩],
      ∃ m, d.lastModifiedDate = some m ∧ m ≠ "" := by
    intro d hd
    rcases List.mem_cons.mp hd with rfl | hd
    · exact ⟨"mX", rfl, by decide⟩
    rcases List.mem_cons.mp hd with rfl | hd
    · exact ⟨"mY", rfl, by decide⟩
    exact absurd hd (List.not_mem_nil _)
  have hFid : ∀ cid (dd : Deal),
      (fun cid => Except.ok (⟨cid, "fresh", none, "s", "cn", none, none, "pc",
        none, some "mZ", none⟩ : Deal) : String → Except String Deal) cid =
        Except.ok dd → dd.id = cid := by
    intro cid dd h
    injection h with h'
    rw [← h']
  have hFok : ∀ cid, ∃ dd,
      (fun cid => Except.ok (⟨cid, "fresh", none, "s", "cn", none, none, "pc",
        none, some "mZ", none⟩ : Deal) : String → Except String Deal) cid =
        Except.ok dd := fun cid => ⟨_, rfl⟩
  have hmain := reconciler_diff_spec [⟨"A", some "mX"⟩, ⟨"C", some "mZ"⟩]
    [⟨"A", "a", none, "s", "cn", none, none, "pc", none, some "mX", none⟩,
     ⟨"B", "b", none, "s", "cn", none, none, "pc", none, some "mY", none⟩] 0
    (fun cid => Except.ok ⟨cid, "fresh", none, "s", "cn", none, none, "pc",
      none, some "mZ", none⟩) [] (fun _ => ⟨"cn", none, none, "pc", none,
      none, none⟩) (by decide) (by decide) hM hFid hFok
  refine ⟨hmain.1, ?_, ?_, ?_⟩
  · intro d' hd'
    exact hmain.2.1 ⟨"B", "b", none, "s", "cn", none, none, "pc", none,
      some "mY", none⟩ (by decide) (by decide) d' hd'
  · exact hmain.2.2.1 ⟨"A", "a", none, "s", "cn", none, none, "pc", none,
      some "mX", none⟩ (by decide) ⟨"A", some "mX"⟩ (by decide) rfl rfl
  · exact hmain.2.2.2 ⟨"C", some "mZ"⟩ (by decide) (by decide)

/-- C7: a detail-fetch failure for one changed id is caught and mapped to
`null`; the pass still attempts every changed id and the merge completes,
with the failing id's stale cached entry retained and every other changed
id's fresh record merged in. -/
theorem reconciler_error_isolation (listing : List ListingDeal)
    (cached : List Deal) (t : Nat) (rawFetch : String → Except String Deal)
    (bulk : List BulkDeal) (sub : BulkDeal → SubEntityData)
    (fid : String) (itf : ListingDeal) (df : Deal)
    (hNC : (cached.map (·.id)).Nodup)
    (hNL : (listing.map (·.id)).Nodup)
    (hM : ∀ d ∈ cached, ∃ m, d.lastModifiedDate = some m ∧ m ≠ "")
    (hFid : ∀ cid dd, rawFetch cid = Except.ok dd → dd.id = cid)
    (hfail : ∃ msg, rawFetch fid = Except.error msg)
    (hFok : ∀ cid, cid ≠ fid → ∃ dd, rawFetch cid = Except.ok dd)
    (hitf : itf ∈ listing) (hitfid : itf.id = fid)
    (hdf : df ∈ cached) (hdfid : df.id = fid)
    (hdfch : df.lastModifiedDate ≠ itf.hs_lastmodifieddate) :
    attemptFetchDeal rawFetch fid = none ∧
    (fetchChangedDeals listing (some ⟨cached, t⟩) rawFetch bulk
      sub).fetchedDetailIds = changedIdsSpec listing cached ∧
    df ∈ (fetchChangedDeals listing (some ⟨cached, t⟩) rawFetch bulk
      sub).merged ∧
    (∀ it ∈ listing, it.id ≠ fid →
      (∀ d ∈ cached, d.id = it.id →
        d.lastModifiedDate ≠ it.hs_lastmodifieddate) →
      ∃ u, rawFetch it.id = Except.ok u ∧
        u ∈ (fetchChangedDeals listing (some ⟨cached, t⟩) rawFetch bulk
          sub).merged) := by
  have hout : fetchChangedDeals listing (some ⟨cached, t⟩) rawFetch bulk sub =
      (if (changedDealIdsOf listing cached).isEmpty &&
          (deletedDealIdsOf listing cached).isEmpty then
        (⟨cached, []⟩ : DiffOutcome)
      else
        ⟨mergedDealsOf listing cached rawFetch ++
            newDealsOf listing cached rawFetch,
          changedDealIdsOf listing cached⟩) := rfl
  have hspec := changedDealIdsOf_eq_spec listing cached hNC hM
  have hchf : ∀ d ∈ cached, d.id = itf.id →
      d.lastModifiedDate ≠ itf.hs_lastmodifieddate := by
    intro d hd hdid
    have : d = df := List.inj_on_of_nodup_map hNC hd hdf (by rw [hdid, hitfid, hdfid])
    rw [this]
    exact hdfch
  have hfidch : fid ∈ changedDealIdsOf listing cached :=
    hitfid ▸ (mem_changedDealIdsOf listing cached itf.id).mpr
      ⟨itf, hitf, rfl, codePred_changed cached itf hNC hM hchf⟩
  have hb : ((changedDealIdsOf listing cached).isEmpty &&
      (deletedDealIdsOf listing cached).isEmpty) = false := by
    have hce : (changedDealIdsOf listing cached).isEmpty = false := by
      cases hcl : changedDealIdsOf listing cached with
      | nil => rw [hcl] at hfidch; exact absurd hfidch (List.not_mem_nil _)
      | cons a l => rfl
    rw [hce, Bool.false_and]
  have hbneg : ¬ (((changedDealIdsOf listing cached).isEmpty &&
      (deletedDealIdsOf listing cached).isEmpty) = true) := by
    rw [hb]
    exact fun h => Bool.noConfusion h
  rcases hfail with ⟨msg, hmsg⟩
  refine ⟨?_, ?_, ?_, ?_⟩
  · unfold attemptFetchDeal
    rw [hmsg]
  · rw [hout]
    by_cases hb' : ((changedDealIdsOf listing cached).isEmpty &&
        (deletedDealIdsOf listing cached).isEmpty) = true
    · exact absurd hb' hbneg
    · rw [if_neg hb']
      exact hspec
  · rw [hout, if_neg hbneg]
    apply List.mem_append.mpr
    left
    have hnotdel : (deletedDealIdsOf listing cached).contains df.id = false := by
      rw [Bool.eq_false_iff]
      intro hcont
      rcases (mem_deletedDealIdsOf listing cached df.id).mp
        ((str_contains_iff _ _).mp hcont) with ⟨c', _, _, hnotin⟩
      exact hnotin (hdfid ▸ hitfid ▸ List.mem_map.mpr ⟨itf, hitf, rfl⟩)
    have hget : jsMapGet (updatedDealsMapOf listing cached rawFetch) df.id =
        none := by
      cases hget' : jsMapGet (updatedDealsMapOf listing cached rawFetch) df.id with
      | none => rfl
      | some u =>
        exfalso
        unfold updatedDealsMapOf at hget'
        rcases jsMapGet_map_some (fun x : Deal => x.id) (fun x : Deal => x)
          ((updatedDealsOf listing cached rawFetch).filterMap id) df.id u
          hget' with ⟨w, hw, hwk, _⟩
        rcases mem_updated_filterMap listing cached rawFetch hFid w hw with
          ⟨hwraw, _⟩
        rw [hwk, hdfid, hmsg] at hwraw
        exact Except.noConfusion hwraw
    unfold mergedDealsOf
    apply List.mem_map.mpr
    refine ⟨df, List.mem_filter.mpr ⟨hdf, ?_⟩, by rw [hget]; rfl⟩
    rw [hnotdel]
    rfl
  · intro it hit hitne hch
    have hp := codePred_changed cached it hNC hM hch
    have hidch : it.id ∈ changedDealIdsOf listing cached :=
      (mem_changedDealIdsOf listing cached it.id).mpr ⟨it, hit, rfl, hp⟩
    rcases hFok it.id hitne with ⟨u, hraw⟩
    have huid : u.id = it.id := hFid it.id u hraw
    refine ⟨u, hraw, ?_⟩
    rw [hout, if_neg hbneg]
    apply List.mem_append.mpr
    by_cases hhas : jsMapHas (cachedDealsMapOf cached) it.id = true
    · left
      rcases (jsMapHas_iff _ _).mp hhas with ⟨p, hp', hpk⟩
      rcases List.mem_map.mp hp' with ⟨c, hc, rfl⟩
      have hcid : c.id = it.id := hpk
      have hnotdel : (deletedDealIdsOf listing cached).contains c.id = false := by
        rw [Bool.eq_false_iff]
        intro hcont
        rcases (mem_deletedDealIdsOf listing cached c.id).mp
          ((str_contains_iff _ _).mp hcont) with ⟨c', _, _, hnotin⟩
        exact hnotin (hcid ▸ List.mem_map.mpr ⟨it, hit, rfl⟩)
      have hget : jsMapGet (updatedDealsMapOf listing cached rawFetch) c.id =
          some u := by
        rw [hcid]
        exact jsMapGet_updated_some listing cached rawFetch it.id u hNL hFid
          hidch hraw
      unfold mergedDealsOf
      apply List.mem_map.mpr
      refine ⟨c, List.mem_filter.mpr ⟨hc, ?_⟩, by rw [hget]; rfl⟩
      rw [hnotdel]
      rfl
    · right
      unfold newDealsOf
      apply List.mem_filterMap.mpr
      refine ⟨some u, ?_, ?_⟩
      · rw [updatedDealsOf_eq_map]
        apply List.mem_map.mpr
        refine ⟨it.id, hidch, ?_⟩
        unfold attemptFetchDeal
        rw [hraw]
      · rw [Option.some_bind, huid]
        rw [if_neg (by rw [Bool.not_eq_true] at hhas; simp [hhas])]

/-- C7 witness: the detail fetch for changed id `A` fails; the failure is
mapped to `null` and `A`'s stale cached record survives the merge. -/
theorem reconciler_error_witness :
    attemptFetchDeal (fun cid => if cid = "A" then Except.error "boom"
      else Except.ok ⟨cid, "fresh", none, "s", "cn", none, none, "pc", none,
        some "mZ", none⟩) "A" = none ∧
    (⟨"A", "a", none, "s", "cn", none, none, "pc", none, some "mX", none⟩ : Deal) ∈
      (fetchChangedDeals [⟨"A", some "mX2"⟩, ⟨"B", some "mY"⟩]
        (some ⟨[⟨"A", "a", none, "s", "cn", none, none, "pc", none, some "mX", none⟩,
                ⟨"B", "b", none, "s", "cn", none, none, "pc", none, some "mY", none⟩], 0⟩)
        (fun cid => if cid = "A" then Except.error "boom"
          else Except.ok ⟨cid, "fresh", none, "s", "cn", none, none, "pc", none,
            some "mZ", none⟩) [] (fun _ => ⟨"cn", none, none, "pc", none,
          none, none⟩)).merged := by
  have hM : ∀ d ∈ [(⟨"A", "a", none, "s", "cn", none, none, "pc", none,
      some "mX", none⟩ : Deal),
      ⟨"B", "b", none, "s", "cn", none, none, "pc", none, some "mY", none⟩],
      ∃ m, d.lastModifiedDate = some m ∧ m ≠ "" := by
    intro d hd
    rcases List.mem_cons.mp hd with rfl | hd
    · exact ⟨"mX", rfl, by decide⟩
    rcases List.mem_cons.mp hd with rfl | hd
    · exact ⟨"mY", rfl, by decide⟩
    exact absurd hd (List.not_mem_nil _)
  have hFid : ∀ cid (dd : Deal),
      (fun cid => if cid = "A" then Except.error "boom"
        else Except.ok (⟨cid, "fresh", none, "s", "cn", none, none, "pc", none,
          some "mZ", none⟩ : Deal)) cid = Except.ok dd → dd.id = cid := by
    intro cid dd h
    have h2 : (if cid = "A" then Except.error "boom"
        else Except.ok (⟨cid, "fresh", none, "s", "cn", none, none, "pc", none,
          some "mZ", none⟩ : Deal)) = Except.ok dd := h
    by_cases hc : cid = "A"
    · rw [if_pos hc] at h2
      exact Except.noConfusion h2
    · rw [if_neg hc] at h2
      injection h2 with h'
      rw [← h']
  have hfail : ∃ msg,
      (fun cid => if cid = "A" then Except.error "boom"
        else Except.ok (⟨cid, "fresh", none, "s", "cn", none, none, "pc", none,
          some "mZ", none⟩ : Deal)) "A" = Except.error msg :=
    ⟨"boom", by simp⟩
  have hFok : ∀ cid, cid ≠ "A" → ∃ dd,
      (fun cid => if cid = "A" then Except.error "boom"
        else Except.ok (⟨cid, "fresh", none, "s", "cn", none, none, "pc", none,
          some "mZ", none⟩ : Deal)) cid = Except.ok dd := by
    intro cid h
    refine ⟨⟨cid, "fresh", none, "s", "cn", none, none, "pc", none,
      some "mZ", none⟩, ?_⟩
    show (if cid = "A" then Except.error "boom"
      else Except.ok (⟨cid, "fresh", none, "s", "cn", none, none, "pc", none,
        some "mZ", none⟩ : Deal)) = _
    rw [if_neg h]
  have hmain := reconciler_error_isolation [⟨"A", some "mX2"⟩, ⟨"B", some "mY"⟩]
    [⟨"A", "a", none, "s", "cn", none, none, "pc", none, some "mX", none⟩,
     ⟨"B", "b", none, "s", "cn", none, none, "pc", none, some "mY", none⟩] 0
    (fun cid => if cid = "A" then Except.error "boom"
      else Except.ok ⟨cid, "fresh", none, "s", "cn", none, none, "pc", none,
        some "mZ", none⟩) [] (fun _ => ⟨"cn", none, none, "pc", none,
      none, none⟩) "A" ⟨"A", some "mX2"⟩
    ⟨"A", "a", none, "s", "cn", none, none, "pc", none, some "mX", none⟩
    (by decide) (by decide) hM hFid hfail hFok (by decide) rfl (by decide) rfl
    (by decide)
  exact ⟨hmain.1, hmain.2.2.1⟩

/-! ### C2 — bootstrap followed by a second refresh. -/

theorem fetchAllDeals_eq_map (bulk : List BulkDeal)
    (sub : BulkDeal → SubEntityData) :
    fetchAllDeals bulk sub = bulk.map (fun deal =>
      let e := sub deal
      { id := deal.id
        dealName := deal.dealname.getD "Untitled Deal"
        dealStage := deal.dealstage
        dealStageLabel := e.stageLabel.getD (deal.dealstage.getD "N/A")
        companyName := e.companyName
        companyId := e.companyId
        lastMeetingDate := e.lastMeetingDate
        primaryContact := e.primaryContact
        primaryContactId := e.primaryContactId
        lastModifiedDate := none
        daysInStage := e.daysInStage }) :=
  processBatch_fst _ _ _ _ (by norm_num [BATCH_SIZE])

/-- C2 (code versus claim): starting from an empty snapshot, the bootstrap
does fetch the full collection (here N = 1) and the stored snapshot holds it
with `lastFetched` set — but a second refresh with an unchanged upstream
(the listing still carries the marker `2024-01-01` the bulk fetch returned)
performs a detail fetch for every deal instead of zero, because
`fetchAllDeals` drops `hs_lastmodifieddate` from the records it builds, so
every cached marker is `undefined` and every listed deal counts as changed.
The merged result still holds the same single id. -/
theorem bootstrap_marker_dropped :
    fetchAllDeals [⟨"d1", some "Deal One", some "s1", some "2024-01-01"⟩]
      (fun _ => ⟨"cn", none, none, "pc", none, none, none⟩) =
      [⟨"d1", "Deal One", some "s1", "s1", "cn", none, none, "pc", none,
        none, none⟩] ∧
    getDealsCacheMem (setDealsCacheMem
      (fetchAllDeals [⟨"d1", some "Deal One", some "s1", some "2024-01-01"⟩]
        (fun _ => ⟨"cn", none, none, "pc", none, none, none⟩)) 100) =
      some ⟨[⟨"d1", "Deal One", some "s1", "s1", "cn", none, none, "pc", none,
        none, none⟩], 100⟩ ∧
    (fetchChangedDeals [⟨"d1", some "2024-01-01"⟩]
      (getDealsCacheMem (setDealsCacheMem
        (fetchAllDeals [⟨"d1", some "Deal One", some "s1", some "2024-01-01"⟩]
          (fun _ => ⟨"cn", none, none, "pc", none, none, none⟩)) 100))
      (fun cid => Except.ok ⟨cid, "Deal One", some "s1", "s1", "cn", none,
        none, "pc", none, some "2024-01-01", none⟩)
      [⟨"d1", some "Deal One", some "s1", some "2024-01-01"⟩]
      (fun _ => ⟨"cn", none, none, "pc", none, none, none⟩)).fetchedDetailIds =
      ["d1"] ∧
    ((fetchChangedDeals [⟨"d1", some "2024-01-01"⟩]
      (getDealsCacheMem (setDealsCacheMem
        (fetchAllDeals [⟨"d1", some "Deal One", some "s1", some "2024-01-01"⟩]
          (fun _ => ⟨"cn", none, none, "pc", none, none, none⟩)) 100))
      (fun cid => Except.ok ⟨cid, "Deal One", some "s1", "s1", "cn", none,
        none, "pc", none, some "2024-01-01", none⟩)
      [⟨"d1", some "Deal One", some "s1", some "2024-01-01"⟩]
      (fun _ => ⟨"cn", none, none, "pc", none, none, none⟩)).merged).map
      (·.id) = ["d1"] := by
  have hall : fetchAllDeals [⟨"d1", some "Deal One", some "s1", some "2024-01-01"⟩]
      (fun _ => ⟨"cn", none, none, "pc", none, none, none⟩) =
      [⟨"d1", "Deal One", some "s1", "s1", "cn", none, none, "pc", none,
        none, none⟩] := by
    rw [fetchAllDeals_eq_map]
    rfl
  have hsnap : getDealsCacheMem (setDealsCacheMem
      (fetchAllDeals [⟨"d1", some "Deal One", some "s1", some "2024-01-01"⟩]
        (fun _ => ⟨"cn", none, none, "pc", none, none, none⟩)) 100) =
      some ⟨[⟨"d1", "Deal One", some "s1", "s1", "cn", none, none, "pc", none,
        none, none⟩], 100⟩ := by
    rw [hall]
    rfl
  have hbranch : fetchChangedDeals [⟨"d1", some "2024-01-01"⟩]
      (some ⟨[⟨"d1", "Deal One", some "s1", "s1", "cn", none, none, "pc", none,
        none, none⟩], 100⟩)
      (fun cid => Except.ok ⟨cid, "Deal One", some "s1", "s1", "cn", none,
        none, "pc", none, some "2024-01-01", none⟩)
      [⟨"d1", some "Deal One", some "s1", some "2024-01-01"⟩]
      (fun _ => ⟨"cn", none, none, "pc", none, none, none⟩) =
      ⟨mergedDealsOf [⟨"d1", some "2024-01-01"⟩]
          [⟨"d1", "Deal One", some "s1", "s1", "cn", none, none, "pc", none,
            none, none⟩]
          (fun cid => Except.ok ⟨cid, "Deal One", some "s1", "s1", "cn", none,
            none, "pc", none, some "2024-01-01", none⟩) ++
        newDealsOf [⟨"d1", some "2024-01-01"⟩]
          [⟨"d1", "Deal One", some "s1", "s1", "cn", none, none, "pc", none,
            none, none⟩]
          (fun cid => Except.ok ⟨cid, "Deal One", some "s1", "s1", "cn", none,
            none, "pc", none, some "2024-01-01", none⟩),
        changedDealIdsOf [⟨"d1", some "2024-01-01"⟩]
          [⟨"d1", "Deal One", some "s1", "s1", "cn", none, none, "pc", none,
            none, none⟩]⟩ := by
    have hout : fetchChangedDeals [⟨"d1", some "2024-01-01"⟩]
        (some ⟨[⟨"d1", "Deal One", some "s1", "s1", "cn", none, none, "pc",
          none, none, none⟩], 100⟩)
        (fun cid => Except.ok ⟨cid, "Deal One", some "s1", "s1", "cn", none,
          none, "pc", none, some "2024-01-01", none⟩)
        [⟨"d1", some "Deal One", some "s1", some "2024-01-01"⟩]
        (fun _ => ⟨"cn", none, none, "pc", none, none, none⟩) =
        (if (changedDealIdsOf [⟨"d1", some "2024-01-01"⟩]
            [⟨"d1", "Deal One", some "s1", "s1", "cn", none, none, "pc", none,
              none, none⟩]).isEmpty &&
            (deletedDealIdsOf [⟨"d1", some "2024-01-01"⟩]
            [⟨"d1", "Deal One", some "s1", "s1", "cn", none, none, "pc", none,
              none, none⟩]).isEmpty then
          (⟨[⟨"d1", "Deal One", some "s1", "s1", "cn", none, none, "pc", none,
            none, none⟩], []⟩ : DiffOutcome)
        else
          ⟨mergedDealsOf [⟨"d1", some "2024-01-01"⟩]
              [⟨"d1", "Deal One", some "s1", "s1", "cn", none, none, "pc",
                none, none, none⟩]
              (fun cid => Except.ok ⟨cid, "Deal One", some "s1", "s1", "cn",
                none, none, "pc", none, some "2024-01-01", none⟩) ++
            newDealsOf [⟨"d1", some "2024-01-01"⟩]
              [⟨"d1", "Deal One", some "s1", "s1", "cn", none, none, "pc",
                none, none, none⟩]
              (fun cid => Except.ok ⟨cid, "Deal One", some "s1", "s1", "cn",
                none, none, "pc", none, some "2024-01-01", none⟩),
            changedDealIdsOf [⟨"d1", some "2024-01-01"⟩]
              [⟨"d1", "Deal One", some "s1", "s1", "cn", none, none, "pc",
                none, none, none⟩]⟩) := rfl
    rw [hout, if_neg (by decide)]
  refine ⟨hall, hsnap, ?_, ?_⟩
  · rw [hsnap, hbranch]
    decide
  · rw [hsnap, hbranch]
    simp only [mergedDealsOf, newDealsOf, updatedDealsMapOf,
      updatedDealsOf_eq_map]
    decide
